import Mathlib

/-!
# Leaderboard ranking engine (backend/main.go)

A shallow embedding of the `LeaderboardManager` of `backend/main.go` and of its
operations `SeedUsers`, `calculateRanks`, `UpdateUserRating`, `GetLeaderboard`,
`SearchUsers` and `GetTotalUsers`, and of the two writers around it, `updateHandler`
and the ticker of `SimulateRandomUpdates`.

Modelling decisions.

* Go `int` values are `Int`; the only arithmetic that can leave the 64-bit range
  (`offset + limit` and `end - offset` in `GetLeaderboard`) is wrapped explicitly.
* A `*User` is an address: an index into the list `heap` of allocated records.
  The primary store `users` and the ranked index `usersByRating` hold addresses,
  so that a write through one is seen through the other, as in the source.
* A Go `map` is an association list with unique keys (insert replaces).
* A Go `string` is a `String` (valid UTF-8 text). Go compares strings bytewise,
  which on valid UTF-8 is the lexicographic order on code points.
* The library functions the source calls are not part of the repository:
  `sort.Slice` is a parameter `SliceSort` carrying the contract of package `sort`
  (the result is a permutation of the input and no later element is `less` than an
  earlier one; the order of elements that compare equal is unspecified),
  `unicode.ToLower` is the parameter `lowerRune`, and `math/rand` is a stream of
  raw values from which `Intn n` takes the next one modulo `n`.
* A run-time panic is the result `none`.
* An HTTP request reaches `updateHandler` as its method and its decoded body.
* The mutex only serialises callers; every operation is modelled as one atomic step.
-/

namespace Leaderboard

/-! ## Data model -/

/-- The `User` record of the source. -/
structure User where
  ID : Int
  Username : String
  Rating : Int
  Rank : Int
deriving DecidableEq, Repr, Inhabited

/-- The zero value `User{}` of Go. -/
def User.zero : User := ⟨0, "", 0, 0⟩

/-- The state of a `LeaderboardManager`: the allocated records and the three fields
`users`, `usersByRating` and `usernameIndex` of the source. -/
structure LeaderboardManager where
  heap : List User
  users : List (Int × Nat)
  usersByRating : List Nat
  usernameIndex : List (String × List Int)
deriving DecidableEq, Repr

/-- Reading through a `*User`. -/
def deref (h : List User) (p : Nat) : User := h.getD p User.zero

/-- The write `p.Rating = r`. -/
def setRating (h : List User) (p : Nat) (r : Int) : List User :=
  h.set p { deref h p with Rating := r }

/-- The write `p.Rank = r`. -/
def setRank (h : List User) (p : Nat) (r : Int) : List User :=
  h.set p { deref h p with Rank := r }

/-- Allocation `&User{...}`: the new record goes to the end of the heap and its
address is the former heap length. -/
def alloc (h : List User) (u : User) : List User × Nat := (h ++ [u], h.length)

/-! ## Go maps -/

/-- The map read `v, exists := m[k]`. -/
def mapLookup {κ ν : Type} [DecidableEq κ] (m : List (κ × ν)) (k : κ) : Option ν :=
  match m with
  | [] => none
  | (k', v) :: rest => if k' = k then some v else mapLookup rest k

/-- The map write `m[k] = v`. -/
def mapInsert {κ ν : Type} [DecidableEq κ] (m : List (κ × ν)) (k : κ) (v : ν) : List (κ × ν) :=
  match m with
  | [] => [(k, v)]
  | (k', v') :: rest => if k' = k then (k, v) :: rest else (k', v') :: mapInsert rest k v

/-! ## Library functions -/

/-- The generator of `math/rand`, as the stream of its future raw values. -/
abbrev Rng := Nat → Nat

/-- The call `rand.Intn(n)` for `n > 0`: a value in `[0, n)` and the advanced generator. -/
def Intn (g : Rng) (n : Nat) : Nat × Rng := (g 0 % n, fun k => g (k + 1))

/-- The requirement package `sort` puts on a `less` function: a strict weak order. -/
structure IsStrictWeak (less : Nat → Nat → Bool) : Prop where
  irrefl : ∀ a, less a a = false
  trans : ∀ a b c, less a b = true → less b c = true → less a c = true
  negTrans : ∀ a b c, less a b = false → less b c = false → less a c = false

/-- The function `sort.Slice` at slices of `*User`, with the contract of package `sort`:
the result is a permutation of the slice, and for a strict weak order no element of the
result is `less` than an element before it. -/
structure SliceSort where
  sort : (Nat → Nat → Bool) → List Nat → List Nat
  perm : ∀ less xs, (sort less xs).Perm xs
  sorted : ∀ less xs, IsStrictWeak less →
    (sort less xs).Pairwise (fun a b => less b a = false)

/-- One inner loop of `insertionSortLessFunc`, on the reversed sorted prefix:
`for j := i; j > a && less(data[j], data[j-1]); j-- { swap }`. -/
def insertBack (less : Nat → Nat → Bool) (x : Nat) : List Nat → List Nat
  | [] => [x]
  | p :: ps => if less x p then p :: insertBack less x ps else x :: p :: ps

/-- The function `insertionSortLessFunc` of package `sort`, which is what `sort.Slice`
runs on a slice of at most 12 elements; the accumulator is the reversed sorted prefix. -/
def insertionSortLessFunc (less : Nat → Nat → Bool) (xs : List Nat) : List Nat :=
  (xs.foldl (fun acc x => insertBack less x acc) []).reverse

/-- Go `strings.ToLower`, which is `strings.Map(unicode.ToLower, s)`. -/
def ToLower (lowerRune : Char → Char) (s : String) : String :=
  String.mk (s.data.map lowerRune)

/-- Go `strings.Contains(s, substr)`: `substr` occurs in `s` as a contiguous block. -/
def Contains (s substr : String) : Bool := decide (substr.data <:+: s.data)

/-- The rendering `%d` of a positive loop counter. -/
def formatInt (i : Nat) : String := String.mk (Nat.toDigits 10 i)

/-- The call `fmt.Sprintf("%s_%s%d", firstName, lastName, i)`. -/
def sprintfUsername (firstName lastName : String) (i : Nat) : String :=
  String.mk (firstName.data ++ '_' :: lastName.data ++ (formatInt i).data)

/-! ## The engine -/

/-- The table `firstNames` of `SeedUsers`. -/
def firstNames : List String := [
  "rahul", "priya", "amit", "sneha", "raj", "pooja", "vikram", "anjali",
  "arjun", "kavya", "rohan", "neha", "aditya", "isha", "karan", "divya",
  "sanjay", "meera", "varun", "riya", "nikhil", "tanya", "ankit", "shreya",
  "harsh", "nisha", "akash", "priyanka", "vishal", "swati", "mohit", "ananya",
  "gaurav", "sakshi", "deepak", "megha", "pankaj", "ritika", "manish", "simran",
  "siddharth", "preeti", "ashish", "komal", "suresh", "aarti", "ramesh", "vandana",
  "mahesh", "jyoti", "rajesh", "sunita", "naveen", "rekha", "dinesh", "usha"]

/-- The table `lastNames` of `SeedUsers`. -/
def lastNames : List String := [
  "kumar", "sharma", "singh", "patel", "gupta", "verma", "yadav", "reddy",
  "mehta", "joshi", "malhotra", "agarwal", "chopra", "iyer", "nair", "pillai",
  "bhat", "menon", "desai", "shah", "kapoor", "bose", "ghosh", "das",
  "burman", "mathur", "saxena", "tiwari", "mishra", "pandey", "chauhan", "rajput",
  "thakur", "sinha", "chowdhury", "banerjee", "mukherjee", "dutta", "roy", "sen",
  "bhatt", "trivedi", "jain", "soni", "mittal", "goel", "arora", "khanna"]

/-- The constructor `NewLeaderboardManager`. -/
def NewLeaderboardManager : LeaderboardManager :=
  { heap := [], users := [], usersByRating := [], usernameIndex := [] }

/-- The Go comparison `a < b` of two strings: lexicographic. -/
def strLess (a b : String) : Bool := decide (a.data < b.data)

/-- The comparator handed to `sort.Slice` in `calculateRanks`, on two records. -/
def userLess (a b : User) : Bool :=
  if a.Rating = b.Rating then strLess a.Username b.Username
  else decide (a.Rating > b.Rating)

/-- The rank-assignment loop of `calculateRanks`: `i` is the loop counter, `prev` the
address at position `i - 1` (absent when `i = 0`) and `cur` the variable `currentRank`. -/
def rankLoop : List Nat → Nat → Option Nat → Int → List User → List User
  | [], _, _, _, h => h
  | p :: ps, i, prev, cur, h =>
    let cur1 : Int :=
      match prev with
      | some q => if (deref h p).Rating ≠ (deref h q).Rating then (i : Int) + 1 else cur
      | none => cur
    rankLoop ps (i + 1) (some p) cur1 (setRank h p cur1)

/-- The method `calculateRanks`: sort the ranked index, then assign the ranks. -/
def calculateRanks (srt : SliceSort) (lm : LeaderboardManager) : LeaderboardManager :=
  let idx := srt.sort (fun p q => userLess (deref lm.heap p) (deref lm.heap q)) lm.usersByRating
  { lm with usersByRating := idx, heap := rankLoop idx 0 none 1 lm.heap }

/-- The body of the loop of `SeedUsers` for the counter value `i`. -/
def seedOne (lowerRune : Char → Char) (lm : LeaderboardManager) (g : Rng) (i : Nat) :
    LeaderboardManager × Rng :=
  let (fi, g1) := Intn g firstNames.length
  let (li, g2) := Intn g1 lastNames.length
  let username := sprintfUsername (firstNames.getD fi "") (lastNames.getD li "") i
  let (r, g3) := Intn g2 4901
  let rating : Int := (r : Int) + 100
  let (heap1, user) := alloc lm.heap { ID := i, Username := username, Rating := rating, Rank := 0 }
  let lowerUsername := ToLower lowerRune username
  ({ heap := heap1
     users := mapInsert lm.users (i : Int) user
     usersByRating := lm.usersByRating ++ [user]
     usernameIndex := mapInsert lm.usernameIndex lowerUsername
       (((mapLookup lm.usernameIndex lowerUsername).getD []) ++ [(i : Int)]) }, g3)

/-- The loop `for i := 1; i <= count; i++` of `SeedUsers`, with `n` iterations left. -/
def seedLoop (lowerRune : Char → Char) :
    Nat → Nat → LeaderboardManager → Rng → LeaderboardManager × Rng
  | 0, _, lm, g => (lm, g)
  | n + 1, i, lm, g =>
    let (lm1, g1) := seedOne lowerRune lm g i
    seedLoop lowerRune n (i + 1) lm1 g1

/-- The method `SeedUsers`: `count` records are created, then the ranks are computed once.
The result carries the advanced random generator. -/
def SeedUsers (srt : SliceSort) (lowerRune : Char → Char) (lm : LeaderboardManager)
    (g : Rng) (count : Int) : LeaderboardManager × Rng :=
  let (lm1, g1) := seedLoop lowerRune count.toNat 1 lm g
  (calculateRanks srt lm1, g1)

/-- The method `UpdateUserRating`: the state after the call and the returned `error`
(`none` is Go `nil`). -/
def UpdateUserRating (srt : SliceSort) (lm : LeaderboardManager) (userID newRating : Int) :
    LeaderboardManager × Option String :=
  match mapLookup lm.users userID with
  | none => (lm, some "user not found")
  | some user =>
    (calculateRanks srt { lm with heap := setRating lm.heap user newRating }, none)

/-- Wrap-around of a 64-bit Go `int` (two-complement arithmetic). -/
def wrap64 (x : Int) : Int := (x + 2 ^ 63) % 2 ^ 64 - 2 ^ 63

/-- The index expression `xs[i]`, which panics outside `0 <= i < len(xs)`. -/
def indexAt (xs : List Nat) (i : Int) : Option Nat :=
  if 0 ≤ i then xs.get? i.toNat else none

/-- The copy `&User{ID: u.ID, Username: u.Username, Rating: u.Rating, Rank: u.Rank}`. -/
def copyUser (u : User) : User :=
  { ID := u.ID, Username := u.Username, Rating := u.Rating, Rank := u.Rank }

/-- The copy loop `for i := offset; i < end; i++` of `GetLeaderboard`, with `n = end - i`
iterations left; the result is the part of `result` from index `i - offset` on. -/
def copyLoop (lm : LeaderboardManager) : Nat → Int → Option (List User)
  | 0, _ => some []
  | n + 1, i =>
    match indexAt lm.usersByRating i with
    | none => none
    | some p => (copyLoop lm n (i + 1)).map (fun rest => copyUser (deref lm.heap p) :: rest)

/-- The method `GetLeaderboard`. The result is `none` when the call panics: `make` with a
negative length, or an index outside the slice. (A length too large for `make` arises
only with a negative `offset`, where the first index expression panics as well.) -/
def GetLeaderboard (lm : LeaderboardManager) (limit offset : Int) : Option (List User) :=
  let n : Int := lm.usersByRating.length
  if offset ≥ n then some []
  else
    let end0 := wrap64 (offset + limit)
    let end1 := if end0 > n then n else end0
    let len := wrap64 (end1 - offset)
    if len < 0 then none else copyLoop lm len.toNat offset

/-- The method `SearchUsers`. -/
def SearchUsers (lowerRune : Char → Char) (lm : LeaderboardManager) (query : String) :
    List User :=
  let query := ToLower lowerRune query
  lm.usersByRating.foldl
    (fun results p =>
      let user := deref lm.heap p
      if Contains (ToLower lowerRune user.Username) query then results ++ [copyUser user]
      else results)
    []

/-- The method `GetTotalUsers`. -/
def GetTotalUsers (lm : LeaderboardManager) : Int := lm.users.length

/-- What `updateHandler` reads from a request: the HTTP method, and the body decoded into
`{user_id, rating}` (`none` when `json.Decode` fails). -/
structure UpdateRequest where
  method : String
  body : Option (Int × Int)

/-- The handler `updateHandler`: the state after the request and the HTTP status written
(405 method not allowed, 400 bad request, 404 not found, 200 success). -/
def updateHandler (srt : SliceSort) (lm : LeaderboardManager) (req : UpdateRequest) :
    LeaderboardManager × Nat :=
  if req.method ≠ "POST" then (lm, 405)
  else
    match req.body with
    | none => (lm, 400)
    | some (userID, rating) =>
      if rating < 100 ∨ rating > 5000 then (lm, 400)
      else
        match UpdateUserRating srt lm userID rating with
        | (lm1, some _) => (lm1, 404)
        | (lm1, none) => (lm1, 200)

/-- The loop `for i := 0; i < 10; i++` in the goroutine of `SimulateRandomUpdates`, with `n`
iterations left. The result is `none` when `rand.Intn` panics on an empty store. -/
def simulateLoop (srt : SliceSort) :
    Nat → LeaderboardManager → Rng → Option (LeaderboardManager × Rng)
  | 0, lm, g => some (lm, g)
  | n + 1, lm, g =>
    if lm.users.length = 0 then none
    else
      let (u, g1) := Intn g lm.users.length
      let userID : Int := (u : Int) + 1
      let (r, g2) := Intn g1 4901
      let newRating : Int := (r : Int) + 100
      simulateLoop srt n (UpdateUserRating srt lm userID newRating).1 g2

/-- One firing of the ticker of `SimulateRandomUpdates`: ten random updates. -/
def simulateTick (srt : SliceSort) (lm : LeaderboardManager) (g : Rng) :
    Option (LeaderboardManager × Rng) :=
  simulateLoop srt 10 lm g

/-- The ranked index as the sequence of records it refers to. -/
def ranked (lm : LeaderboardManager) : List User := lm.usersByRating.map (deref lm.heap)

/-! ## Vocabulary of the statements -/

/-- The value of `currentRank` after the test `i > 0 && rating != previous rating`. -/
def nextRank (i : Nat) (prev : Option Int) (r : Int) (cur : Int) : Int :=
  match prev with
  | some q => if r ≠ q then (i : Int) + 1 else cur
  | none => cur

/-- The ranks the loop of `calculateRanks` hands out, as a function of the ratings alone. -/
def rankSeq : List Int → Nat → Option Int → Int → List Int
  | [], _, _, _ => []
  | r :: rs, i, prev, cur =>
    nextRank i prev r cur :: rankSeq rs (i + 1) (some r) (nextRank i prev r cur)

/-- The order of the ranked index: rating descending, then username ascending. -/
def Precedes (a b : User) : Prop :=
  a.Rating > b.Rating ∨ (a.Rating = b.Rating ∧ a.Username ≤ b.Username)

/-- The ranked index is in comparator order. -/
def SortedByComparator (l : List User) : Prop := l.Pairwise Precedes

/-- Standard competition ranking: the rank of a record is one more than the number of
records with a strictly greater rating. -/
def CompetitionRanked (l : List User) : Prop :=
  ∀ u ∈ l, u.Rank = 1 + ((l.countP (fun v => decide (v.Rating > u.Rating)) : Nat) : Int)

/-- The rank of a record is the 1-based position of the first record of the sequence
that carries its rating. -/
def RankIsFirstPosition (l : List User) : Prop :=
  ∀ u ∈ l, u.Rank = ((l.findIdx (fun v => decide (v.Rating = u.Rating)) : Nat) : Int) + 1

/-- Every address in the ranked index is allocated and occurs once. -/
def IndexValid (lm : LeaderboardManager) : Prop :=
  lm.usersByRating.Nodup ∧ ∀ p ∈ lm.usersByRating, p < lm.heap.length

/-- Every entry of the primary store holds the address of an allocated record that
carries the key as its `ID` and is in the ranked index. -/
def StoreValid (lm : LeaderboardManager) : Prop :=
  ∀ e ∈ lm.users, e.2 < lm.heap.length ∧ (deref lm.heap e.2).ID = e.1 ∧ e.2 ∈ lm.usersByRating

/-- Every record of the ranked index is the record the primary store holds under its `ID`. -/
def IndexStored (lm : LeaderboardManager) : Prop :=
  ∀ p ∈ lm.usersByRating, mapLookup lm.users (deref lm.heap p).ID = some p

/-- Every record of the ranked index carries an `ID` that is a key of the primary store. -/
def IndexKeyed (lm : LeaderboardManager) : Prop :=
  ∀ p ∈ lm.usersByRating, (deref lm.heap p).ID ∈ lm.users.map Prod.fst

/-- The ids of the records a call allocated, in allocation order: `before` and `after` are
the states around the call. -/
def assignedIDs (before after : LeaderboardManager) : List Int :=
  (after.heap.drop before.heap.length).map User.ID

/-- The states the engine can be in: from `NewLeaderboardManager` by calls of `SeedUsers`
and `UpdateUserRating` (failed calls included). -/
inductive Reachable (srt : SliceSort) (lowerRune : Char → Char) : LeaderboardManager → Prop
  | init : Reachable srt lowerRune NewLeaderboardManager
  | seed (lm : LeaderboardManager) (g : Rng) (count : Int) :
      Reachable srt lowerRune lm → Reachable srt lowerRune (SeedUsers srt lowerRune lm g count).1
  | update (lm : LeaderboardManager) (userID newRating : Int) :
      Reachable srt lowerRune lm →
      Reachable srt lowerRune (UpdateUserRating srt lm userID newRating).1

/-- The states of a run that seeds at most once, on the new engine, as `main` does. -/
inductive ReachableSeededOnce (srt : SliceSort) (lowerRune : Char → Char) :
    LeaderboardManager → Prop
  | init : ReachableSeededOnce srt lowerRune NewLeaderboardManager
  | seed (g : Rng) (count : Int) :
      ReachableSeededOnce srt lowerRune
        (SeedUsers srt lowerRune NewLeaderboardManager g count).1
  | update (lm : LeaderboardManager) (userID newRating : Int) :
      ReachableSeededOnce srt lowerRune lm →
      ReachableSeededOnce srt lowerRune (UpdateUserRating srt lm userID newRating).1

/-- The states of the running server: from `NewLeaderboardManager` by calls of
`SeedUsers`, firings of the ticker of `SimulateRandomUpdates` and requests served by
`updateHandler`. -/
inductive ReachableServed (srt : SliceSort) (lowerRune : Char → Char) :
    LeaderboardManager → Prop
  | init : ReachableServed srt lowerRune NewLeaderboardManager
  | seed (lm : LeaderboardManager) (g : Rng) (count : Int) :
      ReachableServed srt lowerRune lm →
      ReachableServed srt lowerRune (SeedUsers srt lowerRune lm g count).1
  | tick (lm : LeaderboardManager) (g : Rng) (lm1 : LeaderboardManager) (g1 : Rng) :
      ReachableServed srt lowerRune lm → simulateTick srt lm g = some (lm1, g1) →
      ReachableServed srt lowerRune lm1
  | request (lm : LeaderboardManager) (req : UpdateRequest) :
      ReachableServed srt lowerRune lm →
      ReachableServed srt lowerRune (updateHandler srt lm req).1

/-- Every allocated record has its rating in [100, 5000]. -/
def RatingsBounded (lm : LeaderboardManager) : Prop :=
  ∀ u ∈ lm.heap, 100 ≤ u.Rating ∧ u.Rating ≤ 5000

/-- The sort key of a record: the pair the comparator looks at. -/
def sortKey (u : User) : Int × String := (u.Rating, u.Username)

/-- The comparator of `calculateRanks` on sort keys. -/
def keyLess (a b : Int × String) : Bool :=
  if a.1 = b.1 then strLess a.2 b.2 else decide (a.1 > b.1)

/-- A hand-built engine with two records that share rating and username and differ in
their id; no call of the engine produces it. -/
def tiedPair : LeaderboardManager :=
  { heap := [⟨1, "a", 500, 0⟩, ⟨2, "a", 500, 0⟩]
    users := [(1, 0), (2, 1)]
    usersByRating := [0, 1]
    usernameIndex := [("a", [1, 2])] }

/-- The number a list of decimal digit characters denotes. -/
def digitsValue (cs : List Char) : Nat :=
  cs.foldl (fun acc c => 10 * acc + (c.toNat - 48)) 0

/-- The last character of a list exists and is not a decimal digit. -/
def endsNonDigit (cs : List Char) : Bool :=
  match cs.getLast? with
  | some c => !c.isDigit
  | none => false

/-- The username of a record ends in the decimal rendering of its id, after a part that
does not end in a digit: the shape `SeedUsers` gives to every record. -/
def NameCarriesID (e : Int × String) : Prop :=
  ∃ (i : Nat) (pre : List Char),
    e.1 = (i : Int) ∧ e.2.data = pre ++ Nat.toDigits 10 i ∧ endsNonDigit pre = true

/-- Every allocated record has a username of the shape `SeedUsers` produces. -/
def HeapNamed (lm : LeaderboardManager) : Prop :=
  ∀ e ∈ lm.heap.map (fun u => (u.ID, u.Username)), NameCarriesID e

/-- Two states that no read can tell apart: the ranked index reads the same records in
the same order, the records, the primary store and the username index are the same, and
`GetLeaderboard` and `GetTotalUsers` return the same. -/
def SameObservable (a b : LeaderboardManager) : Prop :=
  ranked a = ranked b ∧ a.heap = b.heap ∧ a.users = b.users ∧
    a.usernameIndex = b.usernameIndex ∧ GetTotalUsers a = GetTotalUsers b ∧
    ∀ limit offset : Int, GetLeaderboard a limit offset = GetLeaderboard b limit offset

/-- A fixed generator used in the concrete runs below. -/
def demoRng : Rng := fun k => 7 * k + 3

/-- The engine of the scenario: users A, B, C with ratings 500, 500, 400, in insertion order
and not yet ranked. -/
def scenarioABC : LeaderboardManager :=
  { heap := [⟨1, "A", 500, 0⟩, ⟨2, "B", 500, 0⟩, ⟨3, "C", 400, 0⟩]
    users := [(1, 0), (2, 1), (3, 2)]
    usersByRating := [0, 1, 2]
    usernameIndex := [("a", [1]), ("b", [2]), ("c", [3])] }

/-! ## The insertion sort of package sort meets the contract -/

theorem insertBack_perm (less : Nat → Nat → Bool) (x : Nat) (l : List Nat) :
    (insertBack less x l).Perm (x :: l) := by
  induction l with
  | nil => simp [insertBack]
  | cons p ps ih =>
    unfold insertBack
    split
    · exact (List.Perm.cons p ih).trans (List.Perm.swap x p ps)
    · exact List.Perm.refl _

theorem foldl_insertBack_perm (less : Nat → Nat → Bool) (xs acc : List Nat) :
    (xs.foldl (fun acc x => insertBack less x acc) acc).Perm (xs ++ acc) := by
  induction xs generalizing acc with
  | nil => simp
  | cons x xs ih =>
    simp only [List.foldl_cons]
    refine (ih _).trans ?_
    refine (List.Perm.append_left xs (insertBack_perm less x acc)).trans ?_
    simp [List.perm_middle]

theorem insertionSortLessFunc_perm (less : Nat → Nat → Bool) (xs : List Nat) :
    (insertionSortLessFunc less xs).Perm xs := by
  unfold insertionSortLessFunc
  refine (List.reverse_perm _).trans ?_
  simpa using foldl_insertBack_perm less xs []

theorem insertBack_sorted (less : Nat → Nat → Bool) (hw : IsStrictWeak less) (x : Nat)
    (l : List Nat) (hl : l.Pairwise (fun a b => less a b = false)) :
    (insertBack less x l).Pairwise (fun a b => less a b = false) := by
  induction l with
  | nil => simp [insertBack]
  | cons p ps ih =>
    rw [List.pairwise_cons] at hl
    unfold insertBack
    split
    · rename_i hxp
      rw [List.pairwise_cons]
      refine ⟨?_, ih hl.2⟩
      intro b hb
      rcases List.mem_cons.1 ((insertBack_perm less x ps).mem_iff.1 hb) with hb | hb
      · subst hb
        cases h : less p b with
        | false => rfl
        | true => have := hw.trans _ _ _ h hxp; rw [hw.irrefl] at this; cases this
      · exact hl.1 b hb
    · rename_i hxp
      have hxp : less x p = false := by simpa using hxp
      rw [List.pairwise_cons]
      refine ⟨?_, List.pairwise_cons.2 hl⟩
      intro b hb
      rcases List.mem_cons.1 hb with hb | hb
      · rw [hb]; exact hxp
      · exact hw.negTrans _ _ _ hxp (hl.1 b hb)

theorem foldl_insertBack_sorted (less : Nat → Nat → Bool) (hw : IsStrictWeak less)
    (xs acc : List Nat) (hacc : acc.Pairwise (fun a b => less a b = false)) :
    (xs.foldl (fun acc x => insertBack less x acc) acc).Pairwise
      (fun a b => less a b = false) := by
  induction xs generalizing acc with
  | nil => simpa
  | cons x xs ih => exact ih _ (insertBack_sorted less hw x acc hacc)

theorem insertionSortLessFunc_sorted (less : Nat → Nat → Bool) (xs : List Nat)
    (hw : IsStrictWeak less) :
    (insertionSortLessFunc less xs).Pairwise (fun a b => less b a = false) := by
  unfold insertionSortLessFunc
  rw [List.pairwise_reverse]
  exact foldl_insertBack_sorted less hw xs [] List.Pairwise.nil

/-- The sorter that `sort.Slice` is on short slices: `insertionSortLessFunc`. -/
def goSort : SliceSort :=
  { sort := insertionSortLessFunc
    perm := insertionSortLessFunc_perm
    sorted := insertionSortLessFunc_sorted }


/-! ## Reads and writes through addresses -/

theorem deref_set (h : List User) (p q : Nat) (u : User) :
    deref (h.set p u) q = if q = p ∧ p < h.length then u else deref h q := by
  unfold deref
  rw [List.getD_eq_getElem?_getD, List.getD_eq_getElem?_getD, List.getElem?_set]
  by_cases hqp : p = q
  · subst hqp
    by_cases hlt : p < h.length
    · simp [hlt]
    · simp [hlt, List.getElem?_eq_none (Nat.le_of_not_lt hlt)]
  · have : ¬ q = p := fun e => hqp e.symm
    simp [hqp, this]

theorem length_setRank (h : List User) (p : Nat) (r : Int) :
    (setRank h p r).length = h.length := by simp [setRank]

theorem length_setRating (h : List User) (p : Nat) (r : Int) :
    (setRating h p r).length = h.length := by simp [setRating]

theorem deref_setRank_Rating (h : List User) (p q : Nat) (r : Int) :
    (deref (setRank h p r) q).Rating = (deref h q).Rating := by
  rw [setRank, deref_set]; split
  · rename_i hc; rw [hc.1]
  · rfl

theorem deref_setRank_ID (h : List User) (p q : Nat) (r : Int) :
    (deref (setRank h p r) q).ID = (deref h q).ID := by
  rw [setRank, deref_set]; split
  · rename_i hc; rw [hc.1]
  · rfl

theorem deref_setRank_Username (h : List User) (p q : Nat) (r : Int) :
    (deref (setRank h p r) q).Username = (deref h q).Username := by
  rw [setRank, deref_set]; split
  · rename_i hc; rw [hc.1]
  · rfl

theorem deref_setRank_Rank_self (h : List User) (p : Nat) (r : Int) (hp : p < h.length) :
    (deref (setRank h p r) p).Rank = r := by
  rw [setRank, deref_set]; simp [hp]

theorem deref_setRank_of_ne (h : List User) (p q : Nat) (r : Int) (hq : q ≠ p) :
    deref (setRank h p r) q = deref h q := by
  rw [setRank, deref_set]; simp [hq]

theorem deref_setRating_ID (h : List User) (p q : Nat) (r : Int) :
    (deref (setRating h p r) q).ID = (deref h q).ID := by
  rw [setRating, deref_set]; split
  · rename_i hc; rw [hc.1]
  · rfl

theorem deref_setRating_Username (h : List User) (p q : Nat) (r : Int) :
    (deref (setRating h p r) q).Username = (deref h q).Username := by
  rw [setRating, deref_set]; split
  · rename_i hc; rw [hc.1]
  · rfl

theorem deref_setRating_Rank (h : List User) (p q : Nat) (r : Int) :
    (deref (setRating h p r) q).Rank = (deref h q).Rank := by
  rw [setRating, deref_set]; split
  · rename_i hc; rw [hc.1]
  · rfl

theorem deref_setRating_Rating_self (h : List User) (p : Nat) (r : Int) (hp : p < h.length) :
    (deref (setRating h p r) p).Rating = r := by
  rw [setRating, deref_set]; simp [hp]

theorem deref_setRating_of_ne (h : List User) (p q : Nat) (r : Int) (hq : q ≠ p) :
    deref (setRating h p r) q = deref h q := by
  rw [setRating, deref_set]; simp [hq]

/-! ## The rank-assignment loop -/

theorem length_rankLoop (ps : List Nat) (i : Nat) (prev : Option Nat) (cur : Int)
    (h : List User) : (rankLoop ps i prev cur h).length = h.length := by
  induction ps generalizing i prev cur h with
  | nil => rfl
  | cons p ps ih => simp only [rankLoop]; rw [ih, length_setRank]

theorem rankLoop_Rating (ps : List Nat) (i : Nat) (prev : Option Nat) (cur : Int)
    (h : List User) (q : Nat) :
    (deref (rankLoop ps i prev cur h) q).Rating = (deref h q).Rating := by
  induction ps generalizing i prev cur h with
  | nil => rfl
  | cons p ps ih => simp only [rankLoop]; rw [ih, deref_setRank_Rating]

theorem rankLoop_ID (ps : List Nat) (i : Nat) (prev : Option Nat) (cur : Int)
    (h : List User) (q : Nat) :
    (deref (rankLoop ps i prev cur h) q).ID = (deref h q).ID := by
  induction ps generalizing i prev cur h with
  | nil => rfl
  | cons p ps ih => simp only [rankLoop]; rw [ih, deref_setRank_ID]

theorem rankLoop_Username (ps : List Nat) (i : Nat) (prev : Option Nat) (cur : Int)
    (h : List User) (q : Nat) :
    (deref (rankLoop ps i prev cur h) q).Username = (deref h q).Username := by
  induction ps generalizing i prev cur h with
  | nil => rfl
  | cons p ps ih => simp only [rankLoop]; rw [ih, deref_setRank_Username]

theorem rankLoop_of_not_mem (ps : List Nat) (i : Nat) (prev : Option Nat) (cur : Int)
    (h : List User) (q : Nat) (hq : q ∉ ps) :
    deref (rankLoop ps i prev cur h) q = deref h q := by
  induction ps generalizing i prev cur h with
  | nil => rfl
  | cons p ps ih =>
    simp only [rankLoop]
    rw [ih _ _ _ _ (fun hm => hq (List.mem_cons_of_mem _ hm)),
      deref_setRank_of_ne _ _ _ _ (fun e => hq (by rw [e]; exact List.mem_cons_self _ _))]

theorem rankLoop_cons (p : Nat) (ps : List Nat) (i : Nat) (prev : Option Nat) (cur : Int)
    (h : List User) :
    rankLoop (p :: ps) i prev cur h
      = rankLoop ps (i + 1) (some p)
          (nextRank i (prev.map (fun q => (deref h q).Rating)) (deref h p).Rating cur)
          (setRank h p
            (nextRank i (prev.map (fun q => (deref h q).Rating)) (deref h p).Rating cur)) := by
  cases prev <;> rfl

theorem rankLoop_ranks (ps : List Nat) (i : Nat) (prev : Option Nat) (cur : Int)
    (h : List User) (hnd : ps.Nodup) (hv : ∀ p ∈ ps, p < h.length) :
    ps.map (fun p => (deref (rankLoop ps i prev cur h) p).Rank)
      = rankSeq (ps.map (fun p => (deref h p).Rating)) i
          (prev.map (fun q => (deref h q).Rating)) cur := by
  induction ps generalizing i prev cur h with
  | nil => rfl
  | cons p ps ih =>
    rw [List.nodup_cons] at hnd
    rw [rankLoop_cons]
    simp only [List.map_cons, rankSeq]
    generalize nextRank i (prev.map (fun q => (deref h q).Rating)) (deref h p).Rating cur = c
    congr 1
    · rw [rankLoop_of_not_mem _ _ _ _ _ _ hnd.1]
      exact deref_setRank_Rank_self _ _ _ (hv p (List.mem_cons_self _ _))
    · rw [ih (i + 1) (some p) c (setRank h p c) hnd.2
        (fun q hq => by rw [length_setRank]; exact hv q (List.mem_cons_of_mem _ hq))]
      simp only [Option.map_some', deref_setRank_Rating]

theorem rankSeq_spec (pre rs : List Int) (cur : Int)
    (hs : (pre ++ rs).Pairwise (fun a b => b ≤ a))
    (hcur : cur = match pre.getLast? with
      | some q => 1 + ((pre.countP (fun v => decide (q < v)) : Nat) : Int)
      | none => 1) :
    rankSeq rs pre.length pre.getLast? cur
      = rs.map (fun r => 1 + (((pre ++ rs).countP (fun v => decide (r < v)) : Nat) : Int)) := by
  induction rs generalizing pre cur with
  | nil => rfl
  | cons r rs ih =>
    have hpre : ∀ v ∈ pre, r ≤ v := by
      intro v hv
      exact (List.pairwise_append.1 hs).2.2 v hv r (List.mem_cons_self _ _)
    have hrs : ∀ v ∈ r :: rs, v ≤ r := by
      intro v hv
      rcases List.mem_cons.1 hv with e | hv
      · rw [e]
      · exact List.rel_of_pairwise_cons (List.pairwise_append.1 hs).2.1 hv
    have hzero : (r :: rs).countP (fun v => decide (r < v)) = 0 := by
      rw [List.countP_eq_zero]
      intro v hv
      simpa using hrs v hv
    have hnext : nextRank pre.length pre.getLast? r cur
        = 1 + ((pre.countP (fun v => decide (r < v)) : Nat) : Int) := by
      rcases List.eq_nil_or_concat pre with hnil | ⟨pre0, q, hq⟩
      · subst hnil; simp [nextRank, hcur]
      · rw [List.concat_eq_append] at hq
        subst hq
        simp only [List.getLast?_concat] at hcur ⊢
        simp only [nextRank]
        by_cases hrq : r = q
        · subst hrq; simp [hcur]
        · have hlt : r < q := lt_of_le_of_ne (hpre q (by simp)) hrq
          have hall : (pre0 ++ [q]).countP (fun v => decide (r < v)) = (pre0 ++ [q]).length := by
            rw [List.countP_eq_length]
            intro v hv
            have h1 : q ≤ v := by
              rcases List.mem_append.1 hv with hv | hv
              · have := (List.pairwise_append.1 (List.pairwise_append.1 hs).1).2.2 v hv q (by simp)
                exact this
              · simp at hv; rw [hv]
            simpa using lt_of_lt_of_le hlt h1
          rw [if_pos hrq, hall]; ring
    simp only [rankSeq, List.map_cons]
    congr 1
    · rw [hnext, List.countP_append, hzero]; simp
    · have h2 := ih (pre ++ [r]) (nextRank pre.length pre.getLast? r cur)
        (by simpa using hs)
        (by
          rw [List.getLast?_concat, hnext]
          simp [List.countP_append])
      rw [List.getLast?_concat] at h2
      simp only [List.length_append, List.length_singleton, List.append_assoc,
        List.singleton_append] at h2
      exact h2

/-! ## The comparator of calculateRanks -/

theorem strLess_eq_decide (a b : String) : strLess a b = decide (a < b) := by
  unfold strLess
  exact decide_eq_decide.2 String.lt_iff_toList_lt.symm

theorem userLess_irrefl (a : User) : userLess a a = false := by
  simp [userLess, strLess_eq_decide]

theorem userLess_trans (a b c : User) (h1 : userLess a b = true) (h2 : userLess b c = true) :
    userLess a c = true := by
  unfold userLess at *
  simp only [strLess_eq_decide] at *
  by_cases hab : a.Rating = b.Rating <;> by_cases hbc : b.Rating = c.Rating
  · simp only [hab, hbc, if_true, decide_eq_true_eq] at h1 h2 ⊢
    exact lt_trans h1 h2
  · simp only [hab, hbc, if_true, if_false, decide_eq_true_eq] at h1 h2 ⊢
    exact h2
  · have hac : ¬ a.Rating = c.Rating := by rw [← hbc]; exact hab
    simp only [hab, hbc, hac, if_true, if_false, decide_eq_true_eq] at h1 h2 ⊢
    exact h1
  · simp only [hab, hbc, if_false, decide_eq_true_eq] at h1 h2
    have hac : ¬ a.Rating = c.Rating := by omega
    simp only [hac, if_false, decide_eq_true_eq]
    omega

theorem userLess_negTrans (a b c : User) (h1 : userLess a b = false)
    (h2 : userLess b c = false) : userLess a c = false := by
  unfold userLess at *
  simp only [strLess_eq_decide] at *
  by_cases hab : a.Rating = b.Rating <;> by_cases hbc : b.Rating = c.Rating
  · simp only [hab, hbc, if_true, decide_eq_false_iff_not, not_lt] at h1 h2 ⊢
    exact le_trans h2 h1
  · simp only [hab, hbc, if_true, if_false, decide_eq_false_iff_not, not_lt] at h1 h2 ⊢
    exact h2
  · have hac : ¬ a.Rating = c.Rating := by rw [← hbc]; exact hab
    simp only [hab, hbc, hac, if_true, if_false, decide_eq_false_iff_not, not_lt] at h1 h2 ⊢
    exact h1
  · simp only [hab, hbc, if_false, decide_eq_false_iff_not, not_lt, gt_iff_lt] at h1 h2
    have hac : ¬ a.Rating = c.Rating := by omega
    simp only [hac, if_false, decide_eq_false_iff_not, not_lt, gt_iff_lt]
    omega

theorem isStrictWeak_userLess (h : List User) :
    IsStrictWeak (fun p q => userLess (deref h p) (deref h q)) :=
  { irrefl := fun _ => userLess_irrefl _
    trans := fun _ _ _ => userLess_trans _ _ _
    negTrans := fun _ _ _ => userLess_negTrans _ _ _ }

theorem precedes_of_not_userLess (a b : User) (h : userLess b a = false) : Precedes a b := by
  unfold userLess at h
  rw [strLess_eq_decide] at h
  unfold Precedes
  by_cases hba : b.Rating = a.Rating
  · simp only [hba, if_true, decide_eq_false_iff_not, not_lt] at h
    exact Or.inr ⟨hba.symm, h⟩
  · simp only [hba, if_false, decide_eq_false_iff_not, not_lt, gt_iff_lt] at h
    left; omega

/-! ## Invariants and reachable states -/

theorem calculateRanks_usersByRating (srt : SliceSort) (lm : LeaderboardManager) :
    (calculateRanks srt lm).usersByRating
      = srt.sort (fun p q => userLess (deref lm.heap p) (deref lm.heap q)) lm.usersByRating := rfl

theorem calculateRanks_heap (srt : SliceSort) (lm : LeaderboardManager) :
    (calculateRanks srt lm).heap
      = rankLoop (calculateRanks srt lm).usersByRating 0 none 1 lm.heap := rfl

theorem calculateRanks_users (srt : SliceSort) (lm : LeaderboardManager) :
    (calculateRanks srt lm).users = lm.users := rfl

theorem calculateRanks_usernameIndex (srt : SliceSort) (lm : LeaderboardManager) :
    (calculateRanks srt lm).usernameIndex = lm.usernameIndex := rfl

theorem calculateRanks_perm (srt : SliceSort) (lm : LeaderboardManager) :
    (calculateRanks srt lm).usersByRating.Perm lm.usersByRating := srt.perm _ _

theorem calculateRanks_length (srt : SliceSort) (lm : LeaderboardManager) :
    (calculateRanks srt lm).heap.length = lm.heap.length := by
  rw [calculateRanks_heap, length_rankLoop]

theorem calculateRanks_Rating (srt : SliceSort) (lm : LeaderboardManager) (q : Nat) :
    (deref (calculateRanks srt lm).heap q).Rating = (deref lm.heap q).Rating := by
  rw [calculateRanks_heap, rankLoop_Rating]

theorem calculateRanks_ID (srt : SliceSort) (lm : LeaderboardManager) (q : Nat) :
    (deref (calculateRanks srt lm).heap q).ID = (deref lm.heap q).ID := by
  rw [calculateRanks_heap, rankLoop_ID]

theorem calculateRanks_Username (srt : SliceSort) (lm : LeaderboardManager) (q : Nat) :
    (deref (calculateRanks srt lm).heap q).Username = (deref lm.heap q).Username := by
  rw [calculateRanks_heap, rankLoop_Username]

theorem calculateRanks_indexValid (srt : SliceSort) (lm : LeaderboardManager)
    (h : IndexValid lm) : IndexValid (calculateRanks srt lm) := by
  refine ⟨(calculateRanks_perm srt lm).nodup_iff.2 h.1, ?_⟩
  intro p hp
  rw [calculateRanks_length]
  exact h.2 p ((calculateRanks_perm srt lm).mem_iff.1 hp)

theorem calculateRanks_storeValid (srt : SliceSort) (lm : LeaderboardManager)
    (h : StoreValid lm) : StoreValid (calculateRanks srt lm) := by
  intro e he
  obtain ⟨h1, h2, h3⟩ := h e he
  refine ⟨?_, ?_, ?_⟩
  · rw [calculateRanks_length]; exact h1
  · rw [calculateRanks_ID]; exact h2
  · exact (calculateRanks_perm srt lm).mem_iff.2 h3

theorem calculateRanks_sorted (srt : SliceSort) (lm : LeaderboardManager) :
    SortedByComparator (ranked (calculateRanks srt lm)) := by
  unfold SortedByComparator ranked
  rw [List.pairwise_map]
  have hs := srt.sorted (fun p q => userLess (deref lm.heap p) (deref lm.heap q))
    lm.usersByRating (isStrictWeak_userLess lm.heap)
  rw [← calculateRanks_usersByRating] at hs
  refine hs.imp ?_
  intro a b hab
  have := precedes_of_not_userLess _ _ hab
  unfold Precedes at this ⊢
  rw [calculateRanks_Rating, calculateRanks_Rating, calculateRanks_Username,
    calculateRanks_Username]
  exact this

theorem rating_le_of_precedes (a b : User) (h : Precedes a b) : b.Rating ≤ a.Rating := by
  rcases h with h | h
  · exact le_of_lt h
  · exact le_of_eq h.1.symm

theorem calculateRanks_competition (srt : SliceSort) (lm : LeaderboardManager)
    (hv : IndexValid lm) : CompetitionRanked (ranked (calculateRanks srt lm)) := by
  have hv2 := calculateRanks_indexValid srt lm hv
  have hsorted := calculateRanks_sorted srt lm
  set lm2 := calculateRanks srt lm with hlm2
  have hranks := rankLoop_ranks lm2.usersByRating 0 none 1 lm.heap hv2.1
    (fun p hp => by rw [← calculateRanks_length srt lm]; exact hv2.2 p hp)
  rw [← calculateRanks_heap] at hranks
  have hratings : lm2.usersByRating.map (fun p => (deref lm.heap p).Rating)
      = (ranked lm2).map User.Rating := by
    unfold ranked
    rw [List.map_map]
    apply List.map_congr_left
    intro p _
    simp only [Function.comp, hlm2, calculateRanks_Rating]
  have hdesc : ((ranked lm2).map User.Rating).Pairwise (fun a b => b ≤ a) := by
    rw [List.pairwise_map]
    exact hsorted.imp (fun {a b} hab => rating_le_of_precedes a b hab)
  have hspec := rankSeq_spec [] ((ranked lm2).map User.Rating) 1 (by simpa using hdesc) rfl
  simp only [List.length_nil, List.getLast?_nil, List.nil_append] at hspec
  rw [hratings] at hranks
  simp only [Option.map_none'] at hranks
  rw [hspec] at hranks
  intro u hu
  unfold ranked at hu
  obtain ⟨p, hp, rfl⟩ := List.mem_map.1 hu
  have hmap : (lm2.usersByRating.map (fun p => (deref lm2.heap p).Rank))
      = lm2.usersByRating.map (fun p => 1 + (((List.map User.Rating (ranked lm2)).countP
          (fun v => decide ((deref lm2.heap p).Rating < v)) : Nat) : Int)) := by
    rw [hranks]
    unfold ranked
    simp only [List.map_map]
    rfl
  have := List.map_inj_left.1 hmap p hp
  rw [this, List.countP_map]
  rfl

/-! ## Seeding, updating and what every reachable state satisfies -/

theorem mem_mapInsert {κ ν : Type} [DecidableEq κ] (m : List (κ × ν)) (k : κ) (v : ν)
    (e : κ × ν) (he : e ∈ mapInsert m k v) : e = (k, v) ∨ e ∈ m := by
  induction m with
  | nil => left; simpa [mapInsert] using he
  | cons x rest ih =>
    obtain ⟨k1, v1⟩ := x
    unfold mapInsert at he
    split at he
    · rcases List.mem_cons.1 he with h | h
      · exact Or.inl h
      · exact Or.inr (List.mem_cons_of_mem _ h)
    · rcases List.mem_cons.1 he with h | h
      · exact Or.inr (h ▸ List.mem_cons_self _ _)
      · rcases ih h with h | h
        · exact Or.inl h
        · exact Or.inr (List.mem_cons_of_mem _ h)

theorem mapLookup_mem {κ ν : Type} [DecidableEq κ] (m : List (κ × ν)) (k : κ) (v : ν)
    (h : mapLookup m k = some v) : (k, v) ∈ m := by
  induction m with
  | nil => simp [mapLookup] at h
  | cons x rest ih =>
    obtain ⟨k1, v1⟩ := x
    unfold mapLookup at h
    split at h
    · rename_i hk
      cases h
      rw [hk]; exact List.mem_cons_self _ _
    · exact List.mem_cons_of_mem _ (ih h)

theorem deref_append_of_lt (h : List User) (u : User) (p : Nat) (hp : p < h.length) :
    deref (h ++ [u]) p = deref h p := by
  unfold deref
  rw [List.getD_eq_getElem?_getD, List.getD_eq_getElem?_getD, List.getElem?_append_left hp]

theorem deref_append_length (h : List User) (u : User) : deref (h ++ [u]) h.length = u := by
  unfold deref
  rw [List.getD_eq_getElem?_getD]
  simp

theorem seedOne_heap (lowerRune : Char → Char) (lm : LeaderboardManager) (g : Rng) (i : Nat) :
    ∃ u : User, u.ID = (i : Int) ∧ (seedOne lowerRune lm g i).1.heap = lm.heap ++ [u] :=
  ⟨_, rfl, rfl⟩

theorem seedOne_usersByRating (lowerRune : Char → Char) (lm : LeaderboardManager) (g : Rng)
    (i : Nat) :
    (seedOne lowerRune lm g i).1.usersByRating = lm.usersByRating ++ [lm.heap.length] := rfl

theorem seedOne_users (lowerRune : Char → Char) (lm : LeaderboardManager) (g : Rng)
    (i : Nat) :
    (seedOne lowerRune lm g i).1.users = mapInsert lm.users (i : Int) lm.heap.length := rfl

theorem seedOne_indexValid (lowerRune : Char → Char) (lm : LeaderboardManager) (g : Rng)
    (i : Nat) (h : IndexValid lm) : IndexValid (seedOne lowerRune lm g i).1 := by
  obtain ⟨u, _, hheap⟩ := seedOne_heap lowerRune lm g i
  unfold IndexValid
  rw [seedOne_usersByRating, hheap]
  refine ⟨?_, ?_⟩
  · rw [List.nodup_append]
    refine ⟨h.1, List.nodup_singleton _, ?_⟩
    intro a ha hb
    have := h.2 a ha
    simp at hb
    omega
  · intro p hp
    rw [List.length_append, List.length_singleton]
    rcases List.mem_append.1 hp with hp | hp
    · have := h.2 p hp; omega
    · simp at hp; omega

theorem seedOne_storeValid (lowerRune : Char → Char) (lm : LeaderboardManager) (g : Rng)
    (i : Nat) (h : StoreValid lm) : StoreValid (seedOne lowerRune lm g i).1 := by
  obtain ⟨u, hu, hheap⟩ := seedOne_heap lowerRune lm g i
  unfold StoreValid
  rw [seedOne_usersByRating, seedOne_users, hheap]
  intro e he
  rcases mem_mapInsert _ _ _ _ he with he | he
  · subst he
    refine ⟨by simp, ?_, by simp⟩
    show (deref (lm.heap ++ [u]) lm.heap.length).ID = (i : Int)
    rw [deref_append_length, hu]
  · obtain ⟨h1, h2, h3⟩ := h e he
    refine ⟨by rw [List.length_append]; omega, ?_, List.mem_append_left _ h3⟩
    rw [deref_append_of_lt _ _ _ h1, h2]

theorem seedLoop_valid (lowerRune : Char → Char) (n i : Nat) (lm : LeaderboardManager)
    (g : Rng) (h : IndexValid lm ∧ StoreValid lm) :
    IndexValid (seedLoop lowerRune n i lm g).1 ∧ StoreValid (seedLoop lowerRune n i lm g).1 := by
  induction n generalizing i lm g with
  | zero => exact h
  | succ n ih =>
    rw [seedLoop]
    exact ih _ _ _ ⟨seedOne_indexValid _ _ _ _ h.1, seedOne_storeValid _ _ _ _ h.2⟩

theorem SeedUsers_eq (srt : SliceSort) (lowerRune : Char → Char) (lm : LeaderboardManager)
    (g : Rng) (count : Int) :
    (SeedUsers srt lowerRune lm g count).1
      = calculateRanks srt (seedLoop lowerRune count.toNat 1 lm g).1 := rfl

theorem setRating_valid (lm : LeaderboardManager) (p : Nat) (r : Int)
    (h : IndexValid lm ∧ StoreValid lm) :
    IndexValid { lm with heap := setRating lm.heap p r } ∧
      StoreValid { lm with heap := setRating lm.heap p r } := by
  refine ⟨⟨h.1.1, ?_⟩, ?_⟩
  · intro q hq
    show q < (setRating lm.heap p r).length
    rw [length_setRating]; exact h.1.2 q hq
  · intro e he
    obtain ⟨h1, h2, h3⟩ := h.2 e he
    refine ⟨?_, ?_, h3⟩
    · show e.2 < (setRating lm.heap p r).length
      rw [length_setRating]; exact h1
    · show (deref (setRating lm.heap p r) e.2).ID = e.1
      rw [deref_setRating_ID]; exact h2

theorem UpdateUserRating_cases (srt : SliceSort) (lm : LeaderboardManager)
    (userID newRating : Int) :
    (mapLookup lm.users userID = none ∧
        UpdateUserRating srt lm userID newRating = (lm, some "user not found")) ∨
    (∃ p, mapLookup lm.users userID = some p ∧
        UpdateUserRating srt lm userID newRating
          = (calculateRanks srt { lm with heap := setRating lm.heap p newRating }, none)) := by
  unfold UpdateUserRating
  cases h : mapLookup lm.users userID with
  | none => exact Or.inl ⟨rfl, rfl⟩
  | some p => exact Or.inr ⟨p, rfl, rfl⟩

/-- What holds in every reachable state. -/
theorem reachable_invariant (srt : SliceSort) (lowerRune : Char → Char)
    (lm : LeaderboardManager) (h : Reachable srt lowerRune lm) :
    (IndexValid lm ∧ StoreValid lm) ∧ SortedByComparator (ranked lm) ∧
      CompetitionRanked (ranked lm) := by
  induction h with
  | init =>
    refine ⟨⟨⟨List.nodup_nil, ?_⟩, ?_⟩, List.Pairwise.nil, ?_⟩
    · intro p hp; cases hp
    · intro e he; cases he
    · intro u hu; cases hu
  | seed lm g count _ ih =>
    rw [SeedUsers_eq]
    have hv := seedLoop_valid lowerRune count.toNat 1 lm g ih.1
    exact ⟨⟨calculateRanks_indexValid _ _ hv.1, calculateRanks_storeValid _ _ hv.2⟩,
      calculateRanks_sorted _ _, calculateRanks_competition _ _ hv.1⟩
  | update lm userID newRating _ ih =>
    rcases UpdateUserRating_cases srt lm userID newRating with ⟨_, he⟩ | ⟨p, _, he⟩
    · rw [he]; exact ih
    · rw [he]
      have hv := setRating_valid lm p newRating ih.1
      exact ⟨⟨calculateRanks_indexValid _ _ hv.1, calculateRanks_storeValid _ _ hv.2⟩,
        calculateRanks_sorted _ _, calculateRanks_competition _ _ hv.1⟩

/-! ## Runs that seed once -/

theorem mapInsert_of_fresh {κ ν : Type} [DecidableEq κ] (m : List (κ × ν)) (k : κ) (v : ν)
    (hk : ∀ e ∈ m, e.1 ≠ k) : mapInsert m k v = m ++ [(k, v)] := by
  induction m with
  | nil => rfl
  | cons x rest ih =>
    obtain ⟨k1, v1⟩ := x
    have h1 : ¬ k1 = k := hk (k1, v1) (List.mem_cons_self _ _)
    unfold mapInsert
    rw [if_neg h1, ih (fun e he => hk e (List.mem_cons_of_mem _ he))]
    rfl

theorem seedLoop_succ (lowerRune : Char → Char) (n i : Nat) (lm : LeaderboardManager)
    (g : Rng) :
    seedLoop lowerRune (n + 1) i lm g
      = seedLoop lowerRune n (i + 1) (seedOne lowerRune lm g i).1 (seedOne lowerRune lm g i).2 :=
  rfl

/-- The loop of `SeedUsers` from counter value `i`, on a store whose keys are all below
`i`: one key per record, so the store and the ranked index grow together. -/
theorem seedLoop_lengths (lowerRune : Char → Char) (n i : Nat) (lm : LeaderboardManager)
    (g : Rng) (hk : ∀ e ∈ lm.users, e.1 < (i : Int))
    (hlen : lm.users.length = lm.usersByRating.length) :
    (seedLoop lowerRune n i lm g).1.users.length
      = (seedLoop lowerRune n i lm g).1.usersByRating.length := by
  induction n generalizing i lm g with
  | zero => exact hlen
  | succ n ih =>
    rw [seedLoop_succ]
    have hfresh : ∀ e ∈ lm.users, e.1 ≠ (i : Int) := fun e he => ne_of_lt (hk e he)
    apply ih
    · rw [seedOne_users, mapInsert_of_fresh _ _ _ hfresh]
      intro e he
      rcases List.mem_append.1 he with he | he
      · have := hk e he; push_cast; omega
      · simp at he; rw [he]; push_cast; omega
    · rw [seedOne_users, mapInsert_of_fresh _ _ _ hfresh, seedOne_usersByRating]
      simp [hlen]

theorem ReachableSeededOnce.reachable {srt : SliceSort} {lowerRune : Char → Char}
    {lm : LeaderboardManager} (h : ReachableSeededOnce srt lowerRune lm) :
    Reachable srt lowerRune lm := by
  induction h with
  | init => exact Reachable.init
  | seed g count => exact Reachable.seed _ g count Reachable.init
  | update lm userID newRating _ ih => exact Reachable.update lm userID newRating ih

theorem seededOnce_total (srt : SliceSort) (lowerRune : Char → Char)
    (lm : LeaderboardManager) (h : ReachableSeededOnce srt lowerRune lm) :
    GetTotalUsers lm = (lm.usersByRating.length : Int) := by
  unfold GetTotalUsers
  induction h with
  | init => rfl
  | seed g count =>
    rw [SeedUsers_eq, calculateRanks_users, (calculateRanks_perm srt _).length_eq,
      seedLoop_lengths lowerRune count.toNat 1 NewLeaderboardManager g
        (fun e he => by cases he) rfl]
  | update lm userID newRating _ ih =>
    rcases UpdateUserRating_cases srt lm userID newRating with ⟨_, he⟩ | ⟨p, _, he⟩
    · rw [he]; exact ih
    · rw [he, calculateRanks_users, (calculateRanks_perm srt _).length_eq]
      exact ih

theorem mapLookup_mapInsert_self {κ ν : Type} [DecidableEq κ] (m : List (κ × ν)) (k : κ)
    (v : ν) : mapLookup (mapInsert m k v) k = some v := by
  induction m with
  | nil => simp [mapInsert, mapLookup]
  | cons x rest ih =>
    obtain ⟨k1, v1⟩ := x
    unfold mapInsert
    by_cases h : k1 = k
    · rw [if_pos h]; simp [mapLookup]
    · rw [if_neg h]; unfold mapLookup; rw [if_neg h]; exact ih

theorem mapLookup_mapInsert_of_ne {κ ν : Type} [DecidableEq κ] (m : List (κ × ν)) (k : κ)
    (v : ν) (k2 : κ) (hne : k2 ≠ k) : mapLookup (mapInsert m k v) k2 = mapLookup m k2 := by
  induction m with
  | nil => simp [mapInsert, mapLookup, hne.symm]
  | cons x rest ih =>
    obtain ⟨k1, v1⟩ := x
    unfold mapInsert
    by_cases h : k1 = k
    · rw [if_pos h]
      have h2 : ¬ k1 = k2 := fun e => hne (e ▸ h)
      simp [mapLookup, h2, hne.symm]
    · rw [if_neg h]
      unfold mapLookup
      by_cases h2 : k1 = k2
      · rw [if_pos h2, if_pos h2]
      · rw [if_neg h2, if_neg h2]; exact ih

theorem seedOne_keys (lowerRune : Char → Char) (lm : LeaderboardManager) (g : Rng) (i : Nat)
    (hk : ∀ e ∈ lm.users, e.1 < (i : Int)) :
    ∀ e ∈ (seedOne lowerRune lm g i).1.users, e.1 < ((i + 1 : Nat) : Int) := by
  intro e he
  rw [seedOne_users] at he
  rcases mem_mapInsert _ _ _ _ he with he | he
  · rw [he]; push_cast; omega
  · have := hk e he; push_cast; omega

theorem seedOne_indexStored (lowerRune : Char → Char) (lm : LeaderboardManager) (g : Rng)
    (i : Nat) (hv : IndexValid lm) (hk : ∀ e ∈ lm.users, e.1 < (i : Int))
    (hs : IndexStored lm) : IndexStored (seedOne lowerRune lm g i).1 := by
  obtain ⟨u, hu, hheap⟩ := seedOne_heap lowerRune lm g i
  unfold IndexStored
  rw [seedOne_usersByRating, seedOne_users, hheap]
  intro p hp
  rcases List.mem_append.1 hp with hp | hp
  · have hlt := hv.2 p hp
    rw [deref_append_of_lt _ _ _ hlt]
    have hkey := hk _ (mapLookup_mem _ _ _ (hs p hp))
    rw [mapLookup_mapInsert_of_ne _ _ _ _ (ne_of_lt hkey)]
    exact hs p hp
  · simp only [List.mem_singleton] at hp
    rw [hp, deref_append_length, hu]
    exact mapLookup_mapInsert_self _ _ _

theorem seedLoop_indexStored (lowerRune : Char → Char) (n i : Nat) (lm : LeaderboardManager)
    (g : Rng) (hv : IndexValid lm) (hk : ∀ e ∈ lm.users, e.1 < (i : Int))
    (hs : IndexStored lm) : IndexStored (seedLoop lowerRune n i lm g).1 := by
  induction n generalizing i lm g with
  | zero => exact hs
  | succ n ih =>
    rw [seedLoop_succ]
    exact ih _ _ _ (seedOne_indexValid _ _ _ _ hv) (seedOne_keys _ _ _ _ hk)
      (seedOne_indexStored _ _ _ _ hv hk hs)

theorem calculateRanks_indexStored (srt : SliceSort) (lm : LeaderboardManager)
    (hs : IndexStored lm) : IndexStored (calculateRanks srt lm) := by
  intro p hp
  rw [calculateRanks_ID, calculateRanks_users]
  exact hs p ((calculateRanks_perm srt lm).mem_iff.1 hp)

theorem seededOnce_indexStored (srt : SliceSort) (lowerRune : Char → Char)
    (lm : LeaderboardManager) (h : ReachableSeededOnce srt lowerRune lm) : IndexStored lm := by
  induction h with
  | init => intro p hp; cases hp
  | seed g count =>
    rw [SeedUsers_eq]
    apply calculateRanks_indexStored
    exact seedLoop_indexStored lowerRune count.toNat 1 NewLeaderboardManager g
      ⟨List.nodup_nil, fun p hp => by cases hp⟩ (fun e he => by cases he)
      (fun p hp => by cases hp)
  | update lm userID newRating _ ih =>
    rcases UpdateUserRating_cases srt lm userID newRating with ⟨_, he⟩ | ⟨p, _, he⟩
    · rw [he]; exact ih
    · rw [he]
      apply calculateRanks_indexStored
      intro q hq
      show mapLookup lm.users (deref (setRating lm.heap p newRating) q).ID = some q
      rw [deref_setRating_ID]
      exact ih q hq

/-! ## Competition ranking -/

theorem countP_gt_eq_findIdx (l : List User) (r : Int)
    (hs : l.Pairwise (fun a b => b.Rating ≤ a.Rating)) (hr : ∃ v ∈ l, v.Rating = r) :
    l.countP (fun v => decide (v.Rating > r)) = l.findIdx (fun v => decide (v.Rating = r)) := by
  induction l with
  | nil => obtain ⟨v, hv, _⟩ := hr; cases hv
  | cons a t ih =>
    rw [List.pairwise_cons] at hs
    by_cases har : a.Rating = r
    · rw [List.findIdx_cons, List.countP_eq_zero.2]
      · simp [har]
      · intro v hv
        rcases List.mem_cons.1 hv with e | hv
        · simp [e, har]
        · have := hs.1 v hv
          simp only [gt_iff_lt, decide_eq_true_eq, not_lt]
          omega
    · obtain ⟨v, hv, hvr⟩ := hr
      rcases List.mem_cons.1 hv with e | hv
      · exact absurd (e ▸ hvr) har
      · have hgt : a.Rating > r := by
          have := hs.1 v hv
          omega
        rw [List.findIdx_cons, List.countP_cons, ih hs.2 ⟨v, hv, hvr⟩]
        simp [har, hgt]

theorem rankIsFirstPosition_of (l : List User) (hs : SortedByComparator l)
    (hc : CompetitionRanked l) : RankIsFirstPosition l := by
  intro u hu
  rw [hc u hu, countP_gt_eq_findIdx l u.Rating
    (hs.imp (fun {a b} hab => rating_le_of_precedes a b hab)) ⟨u, hu, rfl⟩]
  ring

theorem countP_lt_countP (l : List User) (p q : User → Bool) (hpq : ∀ v, p v = true → q v = true)
    (x : User) (hx : x ∈ l) (hqx : q x = true) (hpx : p x = false) :
    l.countP p < l.countP q := by
  induction l with
  | nil => cases hx
  | cons a t ih =>
    have hmono : t.countP p ≤ t.countP q := List.countP_mono_left (fun v _ => hpq v)
    rcases List.mem_cons.1 hx with e | hx
    · subst e
      rw [List.countP_cons, List.countP_cons]
      simp only [hqx, hpx, if_true]
      simp
      omega
    · have := ih hx
      rw [List.countP_cons, List.countP_cons]
      by_cases hpa : p a = true
      · simp only [hpa, hpq a hpa, if_true]; omega
      · by_cases hqa : q a = true
        · simp only [hpa, hqa, if_true]; simp; omega
        · simp only [hpa, hqa]; simp; omega

theorem rank_lt_of_rating_gt (l : List User) (hc : CompetitionRanked l) (a b : User)
    (ha : a ∈ l) (hb : b ∈ l) (hgt : a.Rating > b.Rating) : a.Rank < b.Rank := by
  rw [hc a ha, hc b hb]
  have := countP_lt_countP l (fun v => decide (v.Rating > a.Rating))
    (fun v => decide (v.Rating > b.Rating))
    (fun v hv => by simp only [gt_iff_lt, decide_eq_true_eq] at hv ⊢; omega)
    a ha (by simpa using hgt) (by simp)
  omega

theorem rank_eq_iff_rating_eq (l : List User) (hc : CompetitionRanked l) (a b : User)
    (ha : a ∈ l) (hb : b ∈ l) : a.Rank = b.Rank ↔ a.Rating = b.Rating := by
  constructor
  · intro h
    rcases lt_trichotomy a.Rating b.Rating with hlt | he | hgt
    · have := rank_lt_of_rating_gt l hc b a hb ha hlt; omega
    · exact he
    · have := rank_lt_of_rating_gt l hc a b ha hb hgt; omega
  · intro h
    rw [hc a ha, hc b hb, h]

/-- C1: in every state reachable from `NewLeaderboardManager` by calls of `SeedUsers` and
`UpdateUserRating`, the ranked index is sorted by the comparator: of two records at
positions `i < j`, the first has the greater rating, or the ratings are equal and its
username is lexicographically less than or equal to the other. -/
theorem ranked_index_sorted (srt : SliceSort) (lowerRune : Char → Char)
    (lm : LeaderboardManager) (h : Reachable srt lowerRune lm) (i j : Nat) (a b : User)
    (hij : i < j) (ha : (ranked lm)[i]? = some a) (hb : (ranked lm)[j]? = some b) :
    a.Rating > b.Rating ∨ (a.Rating = b.Rating ∧ a.Username ≤ b.Username) := by
  have hs : (ranked lm).Pairwise Precedes := (reachable_invariant srt lowerRune lm h).2.1
  obtain ⟨hi, rfl⟩ := List.getElem?_eq_some.1 ha
  obtain ⟨hj, rfl⟩ := List.getElem?_eq_some.1 hb
  exact List.pairwise_iff_getElem.1 hs i j hi hj hij

/-- A run of C1: two seeded users, read at positions 0 and 1. -/
theorem ranked_index_sorted_witness :
    Reachable goSort Char.toLower (SeedUsers goSort Char.toLower NewLeaderboardManager demoRng 2).1 ∧
    (ranked (SeedUsers goSort Char.toLower NewLeaderboardManager demoRng 2).1)[0]?
      = some ⟨2, "harsh_rajput2", 138, 1⟩ ∧
    (ranked (SeedUsers goSort Char.toLower NewLeaderboardManager demoRng 2).1)[1]?
      = some ⟨1, "sneha_malhotra1", 117, 2⟩ ∧
    ((138 : Int) > 117 ∨ ((138 : Int) = 117 ∧ "harsh_rajput2" ≤ "sneha_malhotra1")) :=
  ⟨Reachable.seed _ _ _ Reachable.init, by decide, by decide,
    ranked_index_sorted goSort Char.toLower _ (Reachable.seed _ demoRng 2 Reachable.init) 0 1
      ⟨2, "harsh_rajput2", 138, 1⟩ ⟨1, "sneha_malhotra1", 117, 2⟩ (by decide) (by decide)
      (by decide)⟩

/-- C2: after `calculateRanks`, hence after every `SeedUsers` and every successful
`UpdateUserRating` from a reachable state, the rank of every record of the ranked index is
1 + the number of records of the ranked index with a strictly greater rating, and it is
the 1-based position of the first record of the ranked index carrying that rating. -/
theorem competition_ranking (srt : SliceSort) (lowerRune : Char → Char)
    (lm : LeaderboardManager) (h : Reachable srt lowerRune lm) :
    (CompetitionRanked (ranked (calculateRanks srt lm)) ∧
      RankIsFirstPosition (ranked (calculateRanks srt lm))) ∧
    (∀ (g : Rng) (count : Int),
      CompetitionRanked (ranked (SeedUsers srt lowerRune lm g count).1) ∧
      RankIsFirstPosition (ranked (SeedUsers srt lowerRune lm g count).1)) ∧
    (∀ userID newRating : Int, (UpdateUserRating srt lm userID newRating).2 = none →
      CompetitionRanked (ranked (UpdateUserRating srt lm userID newRating).1) ∧
      RankIsFirstPosition (ranked (UpdateUserRating srt lm userID newRating).1)) := by
  have hv := (reachable_invariant srt lowerRune lm h).1.1
  refine ⟨?_, ?_, ?_⟩
  · have hc := calculateRanks_competition srt lm hv
    exact ⟨hc, rankIsFirstPosition_of _ (calculateRanks_sorted srt lm) hc⟩
  · intro g count
    have hi := reachable_invariant srt lowerRune _ (Reachable.seed lm g count h)
    exact ⟨hi.2.2, rankIsFirstPosition_of _ hi.2.1 hi.2.2⟩
  · intro userID newRating _
    have hi := reachable_invariant srt lowerRune _ (Reachable.update lm userID newRating h)
    exact ⟨hi.2.2, rankIsFirstPosition_of _ hi.2.1 hi.2.2⟩

/-- A run of C2, from the state with two seeded users. -/
theorem competition_ranking_witness :
    Reachable goSort Char.toLower (SeedUsers goSort Char.toLower NewLeaderboardManager demoRng 2).1 ∧
    CompetitionRanked (ranked (calculateRanks goSort
      (SeedUsers goSort Char.toLower NewLeaderboardManager demoRng 2).1)) :=
  ⟨Reachable.seed _ _ _ Reachable.init,
    (competition_ranking goSort Char.toLower _ (Reachable.seed _ demoRng 2 Reachable.init)).1.1⟩

/-- C3: in every reachable state, two records of the ranked index have equal `Rank` if and
only if they have equal `Rating`. -/
theorem equal_rank_iff_equal_rating (srt : SliceSort) (lowerRune : Char → Char)
    (lm : LeaderboardManager) (h : Reachable srt lowerRune lm) (a b : User)
    (ha : a ∈ ranked lm) (hb : b ∈ ranked lm) : a.Rank = b.Rank ↔ a.Rating = b.Rating :=
  rank_eq_iff_rating_eq _ (reachable_invariant srt lowerRune lm h).2.2 a b ha hb

/-- A run of C3 on the two seeded users. -/
theorem equal_rank_iff_equal_rating_witness :
    Reachable goSort Char.toLower (SeedUsers goSort Char.toLower NewLeaderboardManager demoRng 2).1 ∧
    (⟨2, "harsh_rajput2", 138, 1⟩ : User) ∈
      ranked (SeedUsers goSort Char.toLower NewLeaderboardManager demoRng 2).1 ∧
    (⟨1, "sneha_malhotra1", 117, 2⟩ : User) ∈
      ranked (SeedUsers goSort Char.toLower NewLeaderboardManager demoRng 2).1 ∧
    ((1 : Int) = 2 ↔ (138 : Int) = 117) :=
  ⟨Reachable.seed _ _ _ Reachable.init, by decide, by decide,
    equal_rank_iff_equal_rating goSort Char.toLower _ (Reachable.seed _ demoRng 2 Reachable.init)
      ⟨2, "harsh_rajput2", 138, 1⟩ ⟨1, "sneha_malhotra1", 117, 2⟩ (by decide) (by decide)⟩

/-! ## UpdateUserRating -/

theorem mapLookup_eq_none_iff {κ ν : Type} [DecidableEq κ] (m : List (κ × ν)) (k : κ) :
    mapLookup m k = none ↔ k ∉ m.map Prod.fst := by
  induction m with
  | nil => simp [mapLookup]
  | cons x rest ih =>
    obtain ⟨k1, v1⟩ := x
    unfold mapLookup
    by_cases hk : k1 = k
    · simp [hk]
    · have hk2 : ¬ k = k1 := fun e => hk e.symm
      simp [hk, hk2, ih]

/-- C4: `UpdateUserRating(userID, newRating)` returns an error exactly when `userID` is not
a key of the primary store, whatever the integer `newRating` is; the error is
"user not found", and the state after a failed call is the state before it. -/
theorem update_error_iff_not_found (srt : SliceSort) (lm : LeaderboardManager)
    (userID newRating : Int) :
    ((UpdateUserRating srt lm userID newRating).2 ≠ none ↔
      userID ∉ lm.users.map Prod.fst) ∧
    ((UpdateUserRating srt lm userID newRating).2 ≠ none →
      (UpdateUserRating srt lm userID newRating).2 = some "user not found" ∧
      (UpdateUserRating srt lm userID newRating).1 = lm) := by
  rw [← mapLookup_eq_none_iff]
  rcases UpdateUserRating_cases srt lm userID newRating with ⟨hl, he⟩ | ⟨p, hl, he⟩
  · rw [he]; simp [hl]
  · rw [he]; simp [hl]

/-- A run of C4: an unknown id on the state with two seeded users. -/
theorem update_error_iff_not_found_witness :
    (UpdateUserRating goSort (SeedUsers goSort Char.toLower NewLeaderboardManager demoRng 2).1
      7 300).2 = some "user not found" ∧
    (UpdateUserRating goSort (SeedUsers goSort Char.toLower NewLeaderboardManager demoRng 2).1
      7 300).1 = (SeedUsers goSort Char.toLower NewLeaderboardManager demoRng 2).1 :=
  (update_error_iff_not_found goSort
    (SeedUsers goSort Char.toLower NewLeaderboardManager demoRng 2).1 7 300).2 (by decide)

/-- C5: when `UpdateUserRating(userID, newRating)` succeeds in a reachable state, the
record the primary store holds under `userID` (it carries that `ID` and is in the ranked
index) has `Rating = newRating` afterwards, every other record keeps its `Rating`, every
record keeps its `ID` and `Username`, no record is allocated, the primary store and the
username index are unchanged, and the ranked index is a permutation of the ranked index
before the call. In a run that seeds once, that record is the only one of the ranked index
with this `ID`. -/
theorem update_success_frame (srt : SliceSort) (lowerRune : Char → Char)
    (lm : LeaderboardManager) (h : Reachable srt lowerRune lm) (userID newRating : Int)
    (hok : (UpdateUserRating srt lm userID newRating).2 = none) :
    ∃ p, mapLookup lm.users userID = some p ∧ p ∈ lm.usersByRating ∧
      (deref lm.heap p).ID = userID ∧
      (deref (UpdateUserRating srt lm userID newRating).1.heap p).Rating = newRating ∧
      (∀ q, q ≠ p → (deref (UpdateUserRating srt lm userID newRating).1.heap q).Rating
        = (deref lm.heap q).Rating) ∧
      (∀ q, (deref (UpdateUserRating srt lm userID newRating).1.heap q).ID
          = (deref lm.heap q).ID ∧
        (deref (UpdateUserRating srt lm userID newRating).1.heap q).Username
          = (deref lm.heap q).Username) ∧
      (UpdateUserRating srt lm userID newRating).1.heap.length = lm.heap.length ∧
      (UpdateUserRating srt lm userID newRating).1.users = lm.users ∧
      (UpdateUserRating srt lm userID newRating).1.usernameIndex = lm.usernameIndex ∧
      (UpdateUserRating srt lm userID newRating).1.usersByRating.Perm lm.usersByRating ∧
      (ReachableSeededOnce srt lowerRune lm →
        ∀ q ∈ lm.usersByRating, (deref lm.heap q).ID = userID → q = p) := by
  rcases UpdateUserRating_cases srt lm userID newRating with ⟨_, he⟩ | ⟨p, hl, he⟩
  · rw [he] at hok; cases hok
  · obtain ⟨h1, h2, h3⟩ := (reachable_invariant srt lowerRune lm h).1.2 _
      (mapLookup_mem _ _ _ hl)
    have huniq : ReachableSeededOnce srt lowerRune lm →
        ∀ q ∈ lm.usersByRating, (deref lm.heap q).ID = userID → q = p := by
      intro hs q hq hid
      have hq2 := seededOnce_indexStored srt lowerRune lm hs q hq
      rw [hid, hl] at hq2
      exact (Option.some.inj hq2).symm
    rw [he]
    refine ⟨p, hl, h3, h2, ?_, ?_, ?_, ?_, rfl, rfl, calculateRanks_perm srt _, huniq⟩
    · rw [calculateRanks_Rating]
      exact deref_setRating_Rating_self _ _ _ h1
    · intro q hq
      rw [calculateRanks_Rating]
      show (deref (setRating lm.heap p newRating) q).Rating = _
      rw [deref_setRating_of_ne _ _ _ _ hq]
    · intro q
      rw [calculateRanks_ID, calculateRanks_Username]
      exact ⟨deref_setRating_ID _ _ _ _, deref_setRating_Username _ _ _ _⟩
    · rw [calculateRanks_length]
      exact length_setRating _ _ _

/-- A run of C5: user 1 of two seeded users is moved to rating 4000. -/
theorem update_success_frame_witness :
    Reachable goSort Char.toLower
      (SeedUsers goSort Char.toLower NewLeaderboardManager demoRng 2).1 ∧
    ranked (UpdateUserRating goSort
      (SeedUsers goSort Char.toLower NewLeaderboardManager demoRng 2).1 1 4000).1
      = [⟨1, "sneha_malhotra1", 4000, 1⟩, ⟨2, "harsh_rajput2", 138, 2⟩] ∧
    ∃ p, mapLookup (SeedUsers goSort Char.toLower NewLeaderboardManager demoRng 2).1.users 1
        = some p ∧
      (deref (UpdateUserRating goSort
        (SeedUsers goSort Char.toLower NewLeaderboardManager demoRng 2).1 1 4000).1.heap
          p).Rating = 4000 :=
  ⟨Reachable.seed _ _ _ Reachable.init, by decide,
    (update_success_frame goSort Char.toLower _ (Reachable.seed _ demoRng 2 Reachable.init)
      1 4000 (by decide)).imp (fun _ hp => ⟨hp.1, hp.2.2.2.1⟩)⟩

/-! ## A concrete scenario -/

/-- Two sorted arrangements of the same elements coincide when distinct elements never
compare equal. -/
theorem sorted_perm_unique (less : Nat → Nat → Bool) (l1 l2 : List Nat) (hp : l1.Perm l2)
    (h1 : l1.Pairwise (fun a b => less b a = false))
    (h2 : l2.Pairwise (fun a b => less b a = false))
    (htot : ∀ a ∈ l1, ∀ b ∈ l1, a ≠ b → less a b = true ∨ less b a = true) : l1 = l2 := by
  induction l1 generalizing l2 with
  | nil => exact (List.nil_perm.1 hp).symm
  | cons a t1 ih =>
    cases l2 with
    | nil => exact absurd hp.symm (by simp)
    | cons b t2 =>
      rw [List.pairwise_cons] at h1 h2
      have hab : a = b := by
        by_contra hne
        have ha : a ∈ t2 := by
          rcases List.mem_cons.1 (hp.mem_iff.1 (List.mem_cons_self a t1)) with e | h
          · exact absurd e hne
          · exact h
        have hb : b ∈ t1 := by
          rcases List.mem_cons.1 (hp.mem_iff.2 (List.mem_cons_self b t2)) with e | h
          · exact absurd e.symm hne
          · exact h
        have e1 := h2.1 a ha
        have e2 := h1.1 b hb
        rcases htot a (List.mem_cons_self _ _) b (List.mem_cons_of_mem _ hb) hne with h | h
        · rw [e1] at h; cases h
        · rw [e2] at h; cases h
      subst hab
      rw [ih t2 (List.Perm.cons_inv hp) h1.2 h2.2
        (fun x hx y hy => htot x (List.mem_cons_of_mem _ hx) y (List.mem_cons_of_mem _ hy))]

/-- When the records of the ranked index have pairwise different (Rating, Username) keys,
`calculateRanks` is determined by the contract of `sort.Slice`: the ranked index becomes
the one sorted arrangement `l`. -/
theorem calculateRanks_eq_of_sorted (srt : SliceSort) (lm : LeaderboardManager)
    (l : List Nat) (hp : l.Perm lm.usersByRating)
    (hs : l.Pairwise (fun a b => userLess (deref lm.heap b) (deref lm.heap a) = false))
    (htot : ∀ a ∈ l, ∀ b ∈ l, a ≠ b →
      userLess (deref lm.heap a) (deref lm.heap b) = true ∨
      userLess (deref lm.heap b) (deref lm.heap a) = true) :
    calculateRanks srt lm = { lm with usersByRating := l, heap := rankLoop l 0 none 1 lm.heap } := by
  have hsort : srt.sort (fun p q => userLess (deref lm.heap p) (deref lm.heap q))
      lm.usersByRating = l :=
    (sorted_perm_unique (fun p q => userLess (deref lm.heap p) (deref lm.heap q)) l _
      (hp.trans (srt.perm _ _).symm) hs (srt.sorted _ _ (isStrictWeak_userLess lm.heap))
      htot).symm
  unfold calculateRanks
  simp only [hsort]

theorem scenarioABC_ranked (srt : SliceSort) :
    calculateRanks srt scenarioABC
      = { scenarioABC with heap := [⟨1, "A", 500, 1⟩, ⟨2, "B", 500, 1⟩, ⟨3, "C", 400, 3⟩] } := by
  rw [calculateRanks_eq_of_sorted srt scenarioABC [0, 1, 2] (List.Perm.refl _)
    (by decide) (by decide)]
  decide

theorem scenarioABC_updated (srt : SliceSort) :
    UpdateUserRating srt (calculateRanks srt scenarioABC) 3 600
      = ({ scenarioABC with
            heap := [⟨1, "A", 500, 2⟩, ⟨2, "B", 500, 2⟩, ⟨3, "C", 600, 1⟩]
            usersByRating := [2, 0, 1] }, none) := by
  rw [scenarioABC_ranked]
  have hl : mapLookup scenarioABC.users 3 = some 2 := by decide
  unfold UpdateUserRating
  simp only [hl]
  rw [calculateRanks_eq_of_sorted srt _ [2, 0, 1] (by decide) (by decide) (by decide)]
  simp only [Prod.mk.injEq, and_true]
  decide

/-- C6: the engine holding exactly the users A, B, C with ratings 500, 500, 400 is ranked
A(1), B(1), C(3) in the order A, B, C; after `UpdateUserRating(3, 600)`, which succeeds,
`GetLeaderboard(3, 0)` returns C (600, rank 1), A (500, rank 2), B (500, rank 2) in that
order. This holds for every sorter that meets the contract of `sort.Slice`. -/
theorem scenario_three_users (srt : SliceSort) :
    ranked (calculateRanks srt scenarioABC)
      = [⟨1, "A", 500, 1⟩, ⟨2, "B", 500, 1⟩, ⟨3, "C", 400, 3⟩] ∧
    (UpdateUserRating srt (calculateRanks srt scenarioABC) 3 600).2 = none ∧
    GetLeaderboard (UpdateUserRating srt (calculateRanks srt scenarioABC) 3 600).1 3 0
      = some [⟨3, "C", 600, 1⟩, ⟨1, "A", 500, 2⟩, ⟨2, "B", 500, 2⟩] := by
  refine ⟨?_, ?_, ?_⟩
  · rw [scenarioABC_ranked]; decide
  · rw [scenarioABC_updated]
  · rw [scenarioABC_updated]; decide

/-! ## GetLeaderboard -/

theorem copyUser_eq (u : User) : copyUser u = u := rfl

theorem ranked_length (lm : LeaderboardManager) :
    (ranked lm).length = lm.usersByRating.length := by simp [ranked]

theorem wrap64_of_range (x : Int) (h1 : -2 ^ 63 ≤ x) (h2 : x < 2 ^ 63) : wrap64 x = x := by
  unfold wrap64
  rw [Int.emod_eq_of_lt (by omega) (by omega)]
  omega

theorem copyLoop_eq (lm : LeaderboardManager) (n i : Nat)
    (h : i + n ≤ lm.usersByRating.length) :
    copyLoop lm n (i : Int) = some (((ranked lm).drop i).take n) := by
  induction n generalizing i with
  | zero => simp [copyLoop]
  | succ n ih =>
    have hi : i < lm.usersByRating.length := by omega
    have hidx : indexAt lm.usersByRating (i : Int) = some (lm.usersByRating[i]) := by
      unfold indexAt
      simp [hi]
    have hnext : ((i : Int) + 1) = ((i + 1 : Nat) : Int) := by push_cast; rfl
    have hi2 : i < (ranked lm).length := by rw [ranked_length]; exact hi
    rw [copyLoop, hidx]
    simp only []
    rw [hnext, ih (i + 1) (by omega), List.drop_eq_getElem_cons hi2, List.take_succ_cons]
    simp [ranked, copyUser_eq, deref]

/-- The result of `GetLeaderboard` on arguments in range: the page of the ranked index. -/
theorem GetLeaderboard_eq (lm : LeaderboardManager) (limit offset : Int) (hl : 0 ≤ limit)
    (ho : 0 ≤ offset) (hov : offset + limit < 2 ^ 63) :
    GetLeaderboard lm limit offset
      = some (((ranked lm).drop offset.toNat).take limit.toNat) := by
  unfold GetLeaderboard
  simp only []
  by_cases hge : offset ≥ (lm.usersByRating.length : Int)
  · rw [if_pos hge]
    have : (ranked lm).length ≤ offset.toNat := by rw [ranked_length]; omega
    rw [List.drop_eq_nil_of_le this]; simp
  · rw [if_neg hge]
    rw [wrap64_of_range (offset + limit) (by omega) hov]
    obtain ⟨o, rfl⟩ := Int.eq_ofNat_of_zero_le ho
    obtain ⟨l, rfl⟩ := Int.eq_ofNat_of_zero_le hl
    simp only [Int.toNat_ofNat]
    have ho2 : o < lm.usersByRating.length := by omega
    by_cases hend : ((o : Int) + (l : Int)) > (lm.usersByRating.length : Int)
    · rw [if_pos hend, wrap64_of_range _ (by omega) (by omega)]
      rw [if_neg (by omega)]
      have : ((lm.usersByRating.length : Int) - (o : Int)).toNat
          = lm.usersByRating.length - o := by omega
      rw [this, copyLoop_eq lm _ o (by omega)]
      congr 1
      rw [List.take_of_length_le (by rw [List.length_drop, ranked_length]),
        List.take_of_length_le (by rw [List.length_drop, ranked_length]; omega)]
    · rw [if_neg hend, wrap64_of_range _ (by omega) (by omega)]
      rw [if_neg (by omega)]
      have : ((o : Int) + (l : Int) - (o : Int)).toNat = l := by omega
      rw [this, copyLoop_eq lm _ o (by omega)]

/-- C7: for `limit >= 0` and `0 <= offset < n`, with `n` the length of the ranked index and
`offset + limit` within the range of `int`, `GetLeaderboard(limit, offset)` returns exactly
`min(limit, n - offset)` records, the `k`-th of which is the record at position
`offset + k` of the ranked index. On a leaderboard of 5 users, `GetLeaderboard(2, 0)` is the
top 2 records and `GetLeaderboard(10, 4)` is exactly one record, the last. -/
theorem getLeaderboard_page (lm : LeaderboardManager) :
    (∀ limit offset : Int, 0 ≤ limit → 0 ≤ offset → offset < (ranked lm).length →
      offset + limit < 2 ^ 63 →
      ∃ res : List User, GetLeaderboard lm limit offset = some res ∧
        (res.length : Int) = min limit ((ranked lm).length - offset) ∧
        ∀ k : Nat, k < res.length → res[k]? = (ranked lm)[offset.toNat + k]?) ∧
    ((ranked lm).length = 5 →
      GetLeaderboard lm 2 0 = some ((ranked lm).take 2) ∧
      ∃ u : User, GetLeaderboard lm 10 4 = some [u] ∧ (ranked lm)[4]? = some u) := by
  have hgen : ∀ limit offset : Int, 0 ≤ limit → 0 ≤ offset → offset < (ranked lm).length →
      offset + limit < 2 ^ 63 →
      ∃ res : List User, GetLeaderboard lm limit offset = some res ∧
        (res.length : Int) = min limit ((ranked lm).length - offset) ∧
        ∀ k : Nat, k < res.length → res[k]? = (ranked lm)[offset.toNat + k]? := by
    intro limit offset hl ho hlt hov
    refine ⟨_, GetLeaderboard_eq lm limit offset hl ho hov, ?_, ?_⟩
    · rw [List.length_take, List.length_drop]
      omega
    · intro k hk
      rw [List.length_take] at hk
      rw [List.getElem?_take_of_lt (by omega), List.getElem?_drop]
  refine ⟨hgen, ?_⟩
  intro h5
  constructor
  · rw [GetLeaderboard_eq lm 2 0 (by decide) (by decide) (by decide)]
    simp
  · rw [GetLeaderboard_eq lm 10 4 (by decide) (by decide) (by decide)]
    have h4 : 4 < (ranked lm).length := by omega
    refine ⟨(ranked lm)[4], ?_, List.getElem?_eq_getElem h4⟩
    have : (4 : Int).toNat = 4 := rfl
    rw [this, List.drop_eq_getElem_cons h4, List.drop_eq_nil_of_le (by omega)]
    rfl

/-- A run of C7 on the state with two seeded users: the page of limit 5 at offset 1. -/
theorem getLeaderboard_page_witness :
    ∃ res : List User,
      GetLeaderboard (SeedUsers goSort Char.toLower NewLeaderboardManager demoRng 2).1 5 1
        = some res ∧
      (res.length : Int) = min 5
        ((ranked (SeedUsers goSort Char.toLower NewLeaderboardManager demoRng 2).1).length - 1) ∧
      ∀ k : Nat, k < res.length → res[k]?
        = (ranked (SeedUsers goSort Char.toLower NewLeaderboardManager demoRng 2).1)[
            (1 : Int).toNat + k]? :=
  (getLeaderboard_page (SeedUsers goSort Char.toLower NewLeaderboardManager demoRng 2).1).1
    5 1 (by decide) (by decide) (by decide) (by decide)

/-! ## Reading beyond the end, and arguments out of range -/

theorem GetLeaderboard_of_ge (lm : LeaderboardManager) (limit offset : Int)
    (h : offset ≥ (lm.usersByRating.length : Int)) : GetLeaderboard lm limit offset = some [] := by
  unfold GetLeaderboard
  simp only []
  rw [if_pos h]

/-- C8 as stated fails: after `SeedUsers(1)` twice the primary store has one key, the ranked
index two records, and `GetLeaderboard(1, 1)` with `offset = GetTotalUsers()` returns a
record. -/
theorem getLeaderboard_beyond_total_counterexample :
    Reachable goSort Char.toLower
      (SeedUsers goSort Char.toLower
        (SeedUsers goSort Char.toLower NewLeaderboardManager demoRng 1).1 demoRng 1).1 ∧
    GetTotalUsers (SeedUsers goSort Char.toLower
        (SeedUsers goSort Char.toLower NewLeaderboardManager demoRng 1).1 demoRng 1).1 = 1 ∧
    (1 : Int) ≥ GetTotalUsers (SeedUsers goSort Char.toLower
        (SeedUsers goSort Char.toLower NewLeaderboardManager demoRng 1).1 demoRng 1).1 ∧
    GetLeaderboard (SeedUsers goSort Char.toLower
        (SeedUsers goSort Char.toLower NewLeaderboardManager demoRng 1).1 demoRng 1).1 1 1
      = some [⟨1, "sneha_malhotra1", 117, 1⟩] ∧
    GetLeaderboard (SeedUsers goSort Char.toLower
        (SeedUsers goSort Char.toLower NewLeaderboardManager demoRng 1).1 demoRng 1).1 1 1
      ≠ some [] :=
  ⟨Reachable.seed _ _ _ (Reachable.seed _ _ _ Reachable.init), by decide, by decide,
    by decide, by decide⟩

/-- C8, amended: for every state, every `limit` and every `offset` that is at least the
length of the ranked index, `GetLeaderboard(limit, offset)` returns an empty sequence; and
in every state of a run that seeds at most once, on the new engine, that length is
`GetTotalUsers()`, so that there every `offset >= GetTotalUsers()` gives an empty
sequence. -/
theorem getLeaderboard_beyond_end (srt : SliceSort) (lowerRune : Char → Char)
    (lm : LeaderboardManager) (limit offset : Int) :
    (offset ≥ (lm.usersByRating.length : Int) → GetLeaderboard lm limit offset = some []) ∧
    (ReachableSeededOnce srt lowerRune lm → offset ≥ GetTotalUsers lm →
      GetLeaderboard lm limit offset = some []) := by
  refine ⟨GetLeaderboard_of_ge lm limit offset, ?_⟩
  intro h hge
  rw [seededOnce_total srt lowerRune lm h] at hge
  exact GetLeaderboard_of_ge lm limit offset hge

/-- A run of amended C8 on the state with two seeded users, at `offset = 2`. -/
theorem getLeaderboard_beyond_end_witness :
    ReachableSeededOnce goSort Char.toLower
      (SeedUsers goSort Char.toLower NewLeaderboardManager demoRng 2).1 ∧
    (2 : Int) ≥ GetTotalUsers (SeedUsers goSort Char.toLower NewLeaderboardManager demoRng 2).1 ∧
    GetLeaderboard (SeedUsers goSort Char.toLower NewLeaderboardManager demoRng 2).1 10 2
      = some [] :=
  ⟨ReachableSeededOnce.seed demoRng 2, by decide,
    (getLeaderboard_beyond_end goSort Char.toLower
      (SeedUsers goSort Char.toLower NewLeaderboardManager demoRng 2).1 10 2).2
      (ReachableSeededOnce.seed demoRng 2) (by decide)⟩

/-- C9 fails on the code: on the state with one seeded user, `GetLeaderboard(-1, 0)` panics
in `make` with the length -1, and `GetLeaderboard(1, -1)` panics at the index -1. -/
theorem getLeaderboard_panics :
    Reachable goSort Char.toLower
      (SeedUsers goSort Char.toLower NewLeaderboardManager demoRng 1).1 ∧
    GetLeaderboard (SeedUsers goSort Char.toLower NewLeaderboardManager demoRng 1).1 (-1) 0
      = none ∧
    GetLeaderboard (SeedUsers goSort Char.toLower NewLeaderboardManager demoRng 1).1 1 (-1)
      = none :=
  ⟨Reachable.seed _ _ _ Reachable.init, by decide, by decide⟩

/-! ## SearchUsers -/

theorem searchFold_eq (heap : List User) (test : User → Bool) (l : List Nat)
    (acc : List User) :
    l.foldl (fun results p => if test (deref heap p) then results ++ [copyUser (deref heap p)]
        else results) acc
      = acc ++ (l.map (deref heap)).filter test := by
  induction l generalizing acc with
  | nil => simp
  | cons p ps ih =>
    rw [List.foldl_cons, ih, List.map_cons, List.filter_cons]
    by_cases ht : test (deref heap p) = true
    · simp [ht, copyUser_eq]
    · simp [ht]

/-- The result of `SearchUsers` is the ranked index filtered by the substring test. -/
theorem SearchUsers_eq_filter (lowerRune : Char → Char) (lm : LeaderboardManager)
    (query : String) :
    SearchUsers lowerRune lm query
      = (ranked lm).filter
          (fun u => Contains (ToLower lowerRune u.Username) (ToLower lowerRune query)) := by
  unfold SearchUsers ranked
  simp only []
  rw [searchFold_eq lm.heap
    (fun u => Contains (ToLower lowerRune u.Username) (ToLower lowerRune query))]
  rfl

theorem ToLower_idem (lowerRune : Char → Char) (hidem : ∀ c, lowerRune (lowerRune c) = lowerRune c)
    (s : String) : ToLower lowerRune (ToLower lowerRune s) = ToLower lowerRune s := by
  unfold ToLower
  simp only [List.map_map]
  congr 1
  apply List.map_congr_left
  intro c _
  exact hidem c

theorem toNat_ofNat_small (n : Nat) (h : n < 55296) : (Char.ofNat n).toNat = n := by
  have hv : n.isValidChar := Or.inl h
  unfold Char.ofNat
  rw [dif_pos hv]
  unfold Char.ofNatAux Char.toNat
  simp [UInt32.toNat]

/-- The ASCII lowering `Char.toLower` is idempotent. -/
theorem toLower_toLower (c : Char) : Char.toLower (Char.toLower c) = Char.toLower c := by
  unfold Char.toLower
  simp only []
  by_cases h : c.toNat ≥ 65 ∧ c.toNat ≤ 90
  · rw [if_pos h, toNat_ofNat_small _ (by omega), if_neg (by omega)]
  · rw [if_neg h, if_neg h]

/-- C10: for every state and every query `q`, `SearchUsers(q)` is the ranked index filtered
to the records whose lowercased `Username` contains the lowercased `q` as a contiguous
block: exactly those records, each once and in ranked order (a sublist of the ranked
index), with all four fields as stored. When lowering a rune twice is lowering it once, as
for `unicode.ToLower`, `SearchUsers(q) = SearchUsers(lowercase(q))`. -/
theorem searchUsers_spec (lowerRune : Char → Char) (lm : LeaderboardManager) (q : String) :
    SearchUsers lowerRune lm q
      = (ranked lm).filter (fun u =>
          decide ((ToLower lowerRune q).data <:+: (ToLower lowerRune u.Username).data)) ∧
    (SearchUsers lowerRune lm q).Sublist (ranked lm) ∧
    (∀ u : User, u ∈ SearchUsers lowerRune lm q ↔
      u ∈ ranked lm ∧ (ToLower lowerRune q).data <:+: (ToLower lowerRune u.Username).data) ∧
    ((∀ c, lowerRune (lowerRune c) = lowerRune c) →
      SearchUsers lowerRune lm q = SearchUsers lowerRune lm (ToLower lowerRune q)) := by
  have h := SearchUsers_eq_filter lowerRune lm q
  refine ⟨h, ?_, ?_, ?_⟩
  · rw [h]; exact List.filter_sublist _
  · intro u
    rw [h, List.mem_filter]
    simp [Contains]
  · intro hidem
    rw [h, SearchUsers_eq_filter, ToLower_idem lowerRune hidem]

/-- A run of C10 with the ASCII lowering: the query "RAJ" on two seeded users. -/
theorem searchUsers_spec_witness :
    SearchUsers Char.toLower (SeedUsers goSort Char.toLower NewLeaderboardManager demoRng 2).1
        "RAJ" = [⟨2, "harsh_rajput2", 138, 1⟩] ∧
    SearchUsers Char.toLower (SeedUsers goSort Char.toLower NewLeaderboardManager demoRng 2).1
        "RAJ"
      = SearchUsers Char.toLower
          (SeedUsers goSort Char.toLower NewLeaderboardManager demoRng 2).1
          (ToLower Char.toLower "RAJ") :=
  ⟨by decide,
    (searchUsers_spec Char.toLower
      (SeedUsers goSort Char.toLower NewLeaderboardManager demoRng 2).1 "RAJ").2.2.2
      toLower_toLower⟩

/-! ## The empty query -/

theorem ToLower_empty (lowerRune : Char → Char) : ToLower lowerRune "" = "" := rfl

theorem Contains_empty (s : String) : Contains s "" = true := by
  unfold Contains
  simp

theorem SearchUsers_empty (lowerRune : Char → Char) (lm : LeaderboardManager) :
    SearchUsers lowerRune lm "" = ranked lm := by
  rw [SearchUsers_eq_filter, ToLower_empty]
  simp only [Contains_empty]
  exact List.filter_true _

/-- C11: for every state, `SearchUsers("")` returns every record of the ranked index in
ranked order, and it is field for field the result of `GetLeaderboard(n, 0)`, where `n` is
the length of the ranked index (a Go slice length, so within the range of `int`). -/
theorem search_empty_query (lowerRune : Char → Char) (lm : LeaderboardManager) :
    SearchUsers lowerRune lm "" = ranked lm ∧
    ((lm.usersByRating.length : Int) < 2 ^ 63 →
      GetLeaderboard lm (lm.usersByRating.length : Int) 0
        = some (SearchUsers lowerRune lm "")) := by
  refine ⟨SearchUsers_empty lowerRune lm, ?_⟩
  intro hn
  rw [GetLeaderboard_eq lm _ 0 (by omega) (by omega) (by omega), SearchUsers_empty]
  simp only [Int.toNat_zero, List.drop_zero, Int.toNat_ofNat]
  rw [List.take_of_length_le (by rw [ranked_length])]

/-- A run of C11 on the state with two seeded users. -/
theorem search_empty_query_witness :
    GetLeaderboard (SeedUsers goSort Char.toLower NewLeaderboardManager demoRng 2).1
        ((SeedUsers goSort Char.toLower NewLeaderboardManager demoRng 2).1.usersByRating.length
          : Int) 0
      = some (SearchUsers Char.toLower
          (SeedUsers goSort Char.toLower NewLeaderboardManager demoRng 2).1 "") :=
  (search_empty_query Char.toLower
    (SeedUsers goSort Char.toLower NewLeaderboardManager demoRng 2).1).2 (by decide)

/-! ## The comparator is a strict total order on keys -/

theorem strLess_total (a b : String) (h : a ≠ b) : strLess a b = true ∨ strLess b a = true := by
  rw [strLess_eq_decide, strLess_eq_decide]
  rcases lt_trichotomy a b with h1 | h1 | h1
  · left; simpa using h1
  · exact absurd h1 h
  · right; simpa using h1

theorem userLess_asymm (a b : User) (h : userLess a b = true) : userLess b a = false := by
  cases hb : userLess b a with
  | false => rfl
  | true =>
    have := userLess_trans a b a h hb
    rw [userLess_irrefl] at this
    cases this

theorem userLess_total (a b : User) (h : (a.Rating, a.Username) ≠ (b.Rating, b.Username)) :
    userLess a b = true ∨ userLess b a = true := by
  unfold userLess
  by_cases hr : a.Rating = b.Rating
  · have hu : a.Username ≠ b.Username := fun e => h (by rw [hr, e])
    rw [if_pos hr, if_pos hr.symm]
    exact strLess_total _ _ hu
  · have hr2 : ¬ b.Rating = a.Rating := fun e => hr e.symm
    rw [if_neg hr, if_neg hr2]
    rcases lt_trichotomy a.Rating b.Rating with h1 | h1 | h1
    · right; simpa using h1
    · exact absurd h1 hr
    · left; simpa using h1

theorem userLess_of_key_eq (a b : User) (h : (a.Rating, a.Username) = (b.Rating, b.Username)) :
    userLess a b = false := by
  have h1 : a.Rating = b.Rating := congrArg Prod.fst h
  have h2 : a.Username = b.Username := congrArg Prod.snd h
  unfold userLess
  rw [if_pos h1, h2, strLess_eq_decide]
  simp

/-- C16: the comparator of `calculateRanks` (`a` before `b` iff `a.Rating > b.Rating`, or the
ratings are equal and `a.Username < b.Username`) is a strict total order on the
(Rating, Username) keys: it is irreflexive and transitive, of two records with different
keys exactly one is before the other, and of two records with the same key neither is. -/
theorem comparator_strict_total_order (a b c : User) :
    (userLess a b = true ↔
      a.Rating > b.Rating ∨ (a.Rating = b.Rating ∧ a.Username < b.Username)) ∧
    userLess a a = false ∧
    (userLess a b = true → userLess b c = true → userLess a c = true) ∧
    ((a.Rating, a.Username) ≠ (b.Rating, b.Username) →
      (userLess a b = true ∧ userLess b a = false) ∨
      (userLess a b = false ∧ userLess b a = true)) ∧
    ((a.Rating, a.Username) = (b.Rating, b.Username) →
      userLess a b = false ∧ userLess b a = false) := by
  refine ⟨?_, userLess_irrefl a, userLess_trans a b c, ?_, ?_⟩
  · unfold userLess
    rw [strLess_eq_decide]
    by_cases hr : a.Rating = b.Rating
    · rw [if_pos hr]; simp [hr]
    · rw [if_neg hr]; simp [hr]
  · intro h
    rcases userLess_total a b h with h1 | h1
    · exact Or.inl ⟨h1, userLess_asymm a b h1⟩
    · exact Or.inr ⟨userLess_asymm b a h1, h1⟩
  · intro h
    exact ⟨userLess_of_key_eq a b h, userLess_of_key_eq b a h.symm⟩

/-- A run of C16 on three records, two of which share their key. -/
theorem comparator_strict_total_order_witness :
    (userLess ⟨1, "a", 500, 0⟩ ⟨2, "b", 500, 0⟩ = true ∧
      userLess ⟨2, "b", 500, 0⟩ ⟨1, "a", 500, 0⟩ = false) ∨
    (userLess ⟨1, "a", 500, 0⟩ ⟨2, "b", 500, 0⟩ = false ∧
      userLess ⟨2, "b", 500, 0⟩ ⟨1, "a", 500, 0⟩ = true) :=
  (comparator_strict_total_order ⟨1, "a", 500, 0⟩ ⟨2, "b", 500, 0⟩ ⟨3, "a", 500, 0⟩).2.2.2.1
    (by decide)

/-! ## Consecutive pages -/

/-- C18: pages tile the ranked sequence. For non-negative `a`, `b` and `offset` with
`offset + a + b` in the range of `int`, the page `GetLeaderboard(a, offset)` followed by the
page `GetLeaderboard(b, offset + a)` is `GetLeaderboard(a + b, offset)`: no record is
skipped or repeated across consecutive pages of an unchanged state. -/
theorem pages_tile (lm : LeaderboardManager) (a b offset : Int) (ha : 0 ≤ a) (hb : 0 ≤ b)
    (ho : 0 ≤ offset) (hov : offset + a + b < 2 ^ 63) :
    ∃ p1 p2 : List User, GetLeaderboard lm a offset = some p1 ∧
      GetLeaderboard lm b (offset + a) = some p2 ∧
      GetLeaderboard lm (a + b) offset = some (p1 ++ p2) := by
  refine ⟨_, _, GetLeaderboard_eq lm a offset ha ho (by omega),
    GetLeaderboard_eq lm b (offset + a) hb (by omega) (by omega), ?_⟩
  rw [GetLeaderboard_eq lm (a + b) offset (by omega) ho (by omega)]
  obtain ⟨o, rfl⟩ := Int.eq_ofNat_of_zero_le ho
  obtain ⟨x, rfl⟩ := Int.eq_ofNat_of_zero_le ha
  obtain ⟨y, rfl⟩ := Int.eq_ofNat_of_zero_le hb
  have h1 : ((x : Int) + (y : Int)).toNat = x + y := by omega
  have h2 : ((o : Int) + (x : Int)).toNat = o + x := by omega
  rw [h1, h2]
  simp only [Int.toNat_ofNat]
  rw [List.take_add, List.drop_drop]

/-- A run of C18 on the state with two seeded users: pages of 1 and 3 from offset 0. -/
theorem pages_tile_witness :
    ∃ p1 p2 : List User,
      GetLeaderboard (SeedUsers goSort Char.toLower NewLeaderboardManager demoRng 2).1 1 0
        = some p1 ∧
      GetLeaderboard (SeedUsers goSort Char.toLower NewLeaderboardManager demoRng 2).1 3 (0 + 1)
        = some p2 ∧
      GetLeaderboard (SeedUsers goSort Char.toLower NewLeaderboardManager demoRng 2).1 (1 + 3) 0
        = some (p1 ++ p2) :=
  pages_tile (SeedUsers goSort Char.toLower NewLeaderboardManager demoRng 2).1 1 3 0
    (by decide) (by decide) (by decide) (by decide)

/-! ## The primary store and the ranked index -/

theorem mem_keys_iff {κ ν : Type} [DecidableEq κ] (m : List (κ × ν)) (k : κ) :
    k ∈ m.map Prod.fst ↔ ∃ v, mapLookup m k = some v := by
  rw [← not_iff_not, ← mapLookup_eq_none_iff]
  cases mapLookup m k <;> simp

theorem mem_keys_mapInsert {κ ν : Type} [DecidableEq κ] (m : List (κ × ν)) (k : κ) (v : ν)
    (k2 : κ) : k2 ∈ (mapInsert m k v).map Prod.fst ↔ k2 = k ∨ k2 ∈ m.map Prod.fst := by
  rw [mem_keys_iff, mem_keys_iff]
  by_cases h : k2 = k
  · subst h; rw [mapLookup_mapInsert_self]; simp
  · rw [mapLookup_mapInsert_of_ne _ _ _ _ h]; simp [h]

theorem seedOne_indexKeyed (lowerRune : Char → Char) (lm : LeaderboardManager) (g : Rng)
    (i : Nat) (hv : IndexValid lm) (hs : IndexKeyed lm) :
    IndexKeyed (seedOne lowerRune lm g i).1 := by
  obtain ⟨u, hu, hheap⟩ := seedOne_heap lowerRune lm g i
  unfold IndexKeyed
  rw [seedOne_usersByRating, seedOne_users, hheap]
  intro p hp
  rw [mem_keys_mapInsert]
  rcases List.mem_append.1 hp with hp | hp
  · rw [deref_append_of_lt _ _ _ (hv.2 p hp)]
    exact Or.inr (hs p hp)
  · simp only [List.mem_singleton] at hp
    rw [hp, deref_append_length, hu]
    exact Or.inl rfl

theorem seedLoop_indexKeyed (lowerRune : Char → Char) (n i : Nat) (lm : LeaderboardManager)
    (g : Rng) (hv : IndexValid lm) (hs : IndexKeyed lm) :
    IndexKeyed (seedLoop lowerRune n i lm g).1 := by
  induction n generalizing i lm g with
  | zero => exact hs
  | succ n ih =>
    rw [seedLoop_succ]
    exact ih _ _ _ (seedOne_indexValid _ _ _ _ hv) (seedOne_indexKeyed _ _ _ _ hv hs)

theorem calculateRanks_indexKeyed (srt : SliceSort) (lm : LeaderboardManager)
    (hs : IndexKeyed lm) : IndexKeyed (calculateRanks srt lm) := by
  intro p hp
  rw [calculateRanks_ID, calculateRanks_users]
  exact hs p ((calculateRanks_perm srt lm).mem_iff.1 hp)

theorem reachable_indexKeyed (srt : SliceSort) (lowerRune : Char → Char)
    (lm : LeaderboardManager) (h : Reachable srt lowerRune lm) : IndexKeyed lm := by
  induction h with
  | init => intro p hp; cases hp
  | seed lm g count hr ih =>
    rw [SeedUsers_eq]
    exact calculateRanks_indexKeyed _ _
      (seedLoop_indexKeyed _ _ _ _ _ (reachable_invariant srt lowerRune lm hr).1.1 ih)
  | update lm userID newRating _ ih =>
    rcases UpdateUserRating_cases srt lm userID newRating with ⟨_, he⟩ | ⟨p, _, he⟩
    · rw [he]; exact ih
    · rw [he]
      apply calculateRanks_indexKeyed
      intro q hq
      show (deref (setRating lm.heap p newRating) q).ID ∈ _
      rw [deref_setRating_ID]
      exact ih q hq

theorem countP_eq_one_of_unique (l : List Nat) (test : Nat → Bool) (p : Nat) (hnd : l.Nodup)
    (hp : p ∈ l) (htest : test p = true) (huniq : ∀ q ∈ l, test q = true → q = p) :
    l.countP test = 1 := by
  induction l with
  | nil => cases hp
  | cons a t ih =>
    rw [List.nodup_cons] at hnd
    rw [List.countP_cons]
    rcases List.mem_cons.1 hp with e | hpt
    · subst e
      have hz : t.countP test = 0 := by
        rw [List.countP_eq_zero]
        intro q hq hq2
        have := huniq q (List.mem_cons_of_mem _ hq) hq2
        exact hnd.1 (this ▸ hq)
      simp [hz, htest]
    · have ha : test a = false := by
        cases hta : test a with
        | false => rfl
        | true =>
          have := huniq a (List.mem_cons_self _ _) hta
          exact absurd (this ▸ hpt) hnd.1
      rw [ih hnd.2 hpt (fun q hq => huniq q (List.mem_cons_of_mem _ hq))]
      simp [ha]

/-- In every reachable state the ids of the ranked index are the keys of the store. -/
theorem reachable_ids (srt : SliceSort) (lowerRune : Char → Char)
    (lm : LeaderboardManager) (h : Reachable srt lowerRune lm) (k : Int) :
    k ∈ lm.users.map Prod.fst ↔ k ∈ (ranked lm).map User.ID := by
  constructor
  · intro hk
    obtain ⟨p, hp⟩ := (mem_keys_iff _ _).1 hk
    obtain ⟨_, h2, h3⟩ := (reachable_invariant srt lowerRune lm h).1.2 _ (mapLookup_mem _ _ _ hp)
    exact List.mem_map.2 ⟨deref lm.heap p, List.mem_map.2 ⟨p, h3, rfl⟩, h2⟩
  · intro hk
    obtain ⟨u, hu, rfl⟩ := List.mem_map.1 hk
    obtain ⟨p, hp, rfl⟩ := List.mem_map.1 hu
    exact reachable_indexKeyed srt lowerRune lm h p hp

/-- C12 as stated fails: after `SeedUsers(1)` twice the id 1 of the primary store is
carried by two records of the ranked index, a record of the ranked index with id 1 is
not the record the store holds under 1, and `GetTotalUsers()` is 1 while the ranked index
has length 2. -/
theorem store_index_agreement_counterexample :
    Reachable goSort Char.toLower
      (SeedUsers goSort Char.toLower
        (SeedUsers goSort Char.toLower NewLeaderboardManager demoRng 1).1 demoRng 1).1 ∧
    (1 : Int) ∈ (SeedUsers goSort Char.toLower
        (SeedUsers goSort Char.toLower NewLeaderboardManager demoRng 1).1 demoRng 1).1.users.map
          Prod.fst ∧
    (ranked (SeedUsers goSort Char.toLower
        (SeedUsers goSort Char.toLower NewLeaderboardManager demoRng 1).1 demoRng 1).1).countP
          (fun u => decide (u.ID = 1)) = 2 ∧
    ¬ IndexStored (SeedUsers goSort Char.toLower
        (SeedUsers goSort Char.toLower NewLeaderboardManager demoRng 1).1 demoRng 1).1 ∧
    GetTotalUsers (SeedUsers goSort Char.toLower
        (SeedUsers goSort Char.toLower NewLeaderboardManager demoRng 1).1 demoRng 1).1 = 1 ∧
    (ranked (SeedUsers goSort Char.toLower
        (SeedUsers goSort Char.toLower NewLeaderboardManager demoRng 1).1 demoRng 1).1).length
      = 2 := by
  refine ⟨Reachable.seed _ _ _ (Reachable.seed _ _ _ Reachable.init), by decide, by decide,
    ?_, by decide, by decide⟩
  intro h
  have h0 := h 0 (by decide)
  revert h0
  decide

/-- C12, amended: in every state of a run that seeds at most once, on the new engine,
every id of the primary store is carried by exactly one record of the ranked index, every
record of the ranked index is the record the store holds under its id, and
`GetTotalUsers()` is the length of the ranked index. In every reachable state the record
the store holds under an id is in the ranked index and carries that id, and the primary
store and the ranked index hold the same set of ids. -/
theorem store_index_agreement (srt : SliceSort) (lowerRune : Char → Char)
    (lm : LeaderboardManager) :
    (ReachableSeededOnce srt lowerRune lm →
      (∀ k ∈ lm.users.map Prod.fst,
        (ranked lm).countP (fun u => decide (u.ID = k)) = 1) ∧
      (∀ p ∈ lm.usersByRating, mapLookup lm.users (deref lm.heap p).ID = some p) ∧
      GetTotalUsers lm = ((ranked lm).length : Int)) ∧
    (Reachable srt lowerRune lm →
      (∀ k p, mapLookup lm.users k = some p →
        p ∈ lm.usersByRating ∧ (deref lm.heap p).ID = k) ∧
      (∀ k, k ∈ lm.users.map Prod.fst ↔ k ∈ (ranked lm).map User.ID)) := by
  constructor
  · intro h
    have hr := h.reachable
    have hinv := reachable_invariant srt lowerRune lm hr
    have hst := seededOnce_indexStored srt lowerRune lm h
    refine ⟨?_, hst, ?_⟩
    · intro k hk
      obtain ⟨p, hp⟩ := (mem_keys_iff _ _).1 hk
      obtain ⟨_, h2, h3⟩ := hinv.1.2 _ (mapLookup_mem _ _ _ hp)
      unfold ranked
      rw [List.countP_map]
      refine countP_eq_one_of_unique _ _ p hinv.1.1.1 h3 (by simpa using h2) ?_
      intro q hq hqk
      have hq2 := hst q hq
      have hid : (deref lm.heap q).ID = k := by simpa using hqk
      rw [hid, hp] at hq2
      exact (Option.some.inj hq2).symm
    · rw [seededOnce_total srt lowerRune lm h, ranked_length]
  · intro h
    refine ⟨?_, reachable_ids srt lowerRune lm h⟩
    intro k p hp
    obtain ⟨_, h2, h3⟩ := (reachable_invariant srt lowerRune lm h).1.2 _ (mapLookup_mem _ _ _ hp)
    exact ⟨h3, h2⟩

/-- A run of amended C12 on the state with two seeded users. -/
theorem store_index_agreement_witness :
    ReachableSeededOnce goSort Char.toLower
      (SeedUsers goSort Char.toLower NewLeaderboardManager demoRng 2).1 ∧
    GetTotalUsers (SeedUsers goSort Char.toLower NewLeaderboardManager demoRng 2).1
      = ((ranked (SeedUsers goSort Char.toLower NewLeaderboardManager demoRng 2).1).length
          : Int) :=
  ⟨ReachableSeededOnce.seed demoRng 2,
    ((store_index_agreement goSort Char.toLower
      (SeedUsers goSort Char.toLower NewLeaderboardManager demoRng 2).1).1
      (ReachableSeededOnce.seed demoRng 2)).2.2⟩

/-! ## The ids SeedUsers assigns -/

theorem deref_of_lt (h : List User) (q : Nat) (hq : q < h.length) : deref h q = h[q] := by
  unfold deref
  rw [List.getD_eq_getElem?_getD, List.getElem?_eq_getElem hq]
  rfl

theorem heap_map_congr {β : Type} (f : User → β) (h1 h2 : List User)
    (hl : h1.length = h2.length) (hf : ∀ q, f (deref h1 q) = f (deref h2 q)) :
    h1.map f = h2.map f := by
  apply List.ext_getElem
  · simp [hl]
  · intro q hq1 hq2
    rw [List.length_map] at hq1 hq2
    rw [List.getElem_map, List.getElem_map, ← deref_of_lt h1 q hq1, ← deref_of_lt h2 q hq2]
    exact hf q

theorem calculateRanks_heap_IDs (srt : SliceSort) (lm : LeaderboardManager) :
    (calculateRanks srt lm).heap.map User.ID = lm.heap.map User.ID :=
  heap_map_congr _ _ _ (calculateRanks_length srt lm) (calculateRanks_ID srt lm)

theorem seedLoop_heap (lowerRune : Char → Char) (n i : Nat) (lm : LeaderboardManager)
    (g : Rng) :
    ∃ l : List User, (seedLoop lowerRune n i lm g).1.heap = lm.heap ++ l ∧
      l.map User.ID = (List.range n).map (fun k => ((i + k : Nat) : Int)) := by
  induction n generalizing i lm g with
  | zero => exact ⟨[], by simp [seedLoop], rfl⟩
  | succ n ih =>
    obtain ⟨u, hu, hheap⟩ := seedOne_heap lowerRune lm g i
    obtain ⟨l, hl, hids⟩ := ih (i + 1) (seedOne lowerRune lm g i).1 (seedOne lowerRune lm g i).2
    refine ⟨u :: l, ?_, ?_⟩
    · rw [seedLoop_succ, hl, hheap]; simp
    · rw [List.map_cons, hu, hids, List.range_succ_eq_map, List.map_cons, List.map_map]
      congr 1
      apply List.map_congr_left
      intro k _
      simp only [Function.comp]
      congr 1
      omega

theorem seedLoop_usersByRating_length (lowerRune : Char → Char) (n i : Nat)
    (lm : LeaderboardManager) (g : Rng) :
    (seedLoop lowerRune n i lm g).1.usersByRating.length = lm.usersByRating.length + n := by
  induction n generalizing i lm g with
  | zero => rfl
  | succ n ih =>
    rw [seedLoop_succ, ih, seedOne_usersByRating]
    simp; omega

/-- The ids `SeedUsers` assigns are 1, 2, ..., count, whatever the state. -/
theorem SeedUsers_assignedIDs (srt : SliceSort) (lowerRune : Char → Char)
    (lm : LeaderboardManager) (g : Rng) (count : Int) :
    assignedIDs lm (SeedUsers srt lowerRune lm g count).1
      = (List.range count.toNat).map (fun k => ((k : Nat) : Int) + 1) := by
  obtain ⟨l, hl, hids⟩ := seedLoop_heap lowerRune count.toNat 1 lm g
  unfold assignedIDs
  rw [List.map_drop, SeedUsers_eq, calculateRanks_heap_IDs, hl, List.map_append,
    List.drop_left' (by simp), hids]
  apply List.map_congr_left
  intro k _
  push_cast
  omega

/-- C13 as stated fails: on the state left by `SeedUsers(1)`, a second `SeedUsers(1)`
assigns the id 1, which is already a key of the primary store. -/
theorem seed_ids_fresh_counterexample :
    assignedIDs (SeedUsers goSort Char.toLower NewLeaderboardManager demoRng 1).1
      (SeedUsers goSort Char.toLower
        (SeedUsers goSort Char.toLower NewLeaderboardManager demoRng 1).1 demoRng 1).1 = [1] ∧
    (1 : Int) ∈ (SeedUsers goSort Char.toLower NewLeaderboardManager demoRng 1).1.users.map
      Prod.fst := by
  constructor <;> decide

/-- C13, amended: for every state and every count the ids `SeedUsers` assigns are
1, 2, ..., count in insertion order (none for `count <= 0`), hence pairwise distinct and
strictly increasing; on the new engine none of them is a key of the primary store before
the call and `GetTotalUsers()` is `count` afterwards (0 for `count <= 0`). -/
theorem seed_ids (srt : SliceSort) (lowerRune : Char → Char) (lm : LeaderboardManager)
    (g : Rng) (count : Int) :
    assignedIDs lm (SeedUsers srt lowerRune lm g count).1
      = (List.range count.toNat).map (fun k => ((k : Nat) : Int) + 1) ∧
    (assignedIDs lm (SeedUsers srt lowerRune lm g count).1).Pairwise (fun a b => a < b) ∧
    (assignedIDs lm (SeedUsers srt lowerRune lm g count).1).Nodup ∧
    (∀ k ∈ assignedIDs NewLeaderboardManager
        (SeedUsers srt lowerRune NewLeaderboardManager g count).1,
      k ∉ NewLeaderboardManager.users.map Prod.fst) ∧
    GetTotalUsers (SeedUsers srt lowerRune NewLeaderboardManager g count).1
      = max count 0 := by
  have hp : (assignedIDs lm (SeedUsers srt lowerRune lm g count).1).Pairwise
      (fun a b => a < b) := by
    rw [SeedUsers_assignedIDs, List.pairwise_map]
    refine (List.pairwise_lt_range _).imp ?_
    intro a b hab
    omega
  refine ⟨SeedUsers_assignedIDs srt lowerRune lm g count, hp, ?_, ?_, ?_⟩
  · exact hp.imp (fun {a b} hab => ne_of_lt hab)
  · intro k _ hk
    cases hk
  · rw [seededOnce_total srt lowerRune _ (ReachableSeededOnce.seed g count), SeedUsers_eq,
      (calculateRanks_perm srt _).length_eq, seedLoop_usersByRating_length]
    simp [NewLeaderboardManager]

/-- A run of C13 on the new engine with `count = 2`. -/
theorem seed_ids_witness :
    assignedIDs NewLeaderboardManager
      (SeedUsers goSort Char.toLower NewLeaderboardManager demoRng 2).1 = [1, 2] ∧
    GetTotalUsers (SeedUsers goSort Char.toLower NewLeaderboardManager demoRng 2).1
      = max 2 0 :=
  ⟨by decide, (seed_ids goSort Char.toLower NewLeaderboardManager demoRng 2).2.2.2.2⟩

/-! ## Rating bounds on the write path -/

theorem ratingsBounded_iff (lm : LeaderboardManager) :
    RatingsBounded lm ↔ ∀ r ∈ lm.heap.map User.Rating, 100 ≤ r ∧ r ≤ 5000 := by
  unfold RatingsBounded
  simp

theorem calculateRanks_bounded (srt : SliceSort) (lm : LeaderboardManager)
    (h : RatingsBounded lm) : RatingsBounded (calculateRanks srt lm) := by
  rw [ratingsBounded_iff] at h ⊢
  rw [heap_map_congr User.Rating _ _ (calculateRanks_length srt lm) (calculateRanks_Rating srt lm)]
  exact h

theorem setRating_bounded (lm : LeaderboardManager) (p : Nat) (r : Int) (h : RatingsBounded lm)
    (hr : 100 ≤ r ∧ r ≤ 5000) :
    RatingsBounded { lm with heap := setRating lm.heap p r } := by
  intro u hu
  rcases List.mem_or_eq_of_mem_set hu with hu | hu
  · exact h u hu
  · rw [hu]; exact hr

theorem UpdateUserRating_bounded (srt : SliceSort) (lm : LeaderboardManager)
    (userID r : Int) (h : RatingsBounded lm) (hr : 100 ≤ r ∧ r ≤ 5000) :
    RatingsBounded (UpdateUserRating srt lm userID r).1 := by
  rcases UpdateUserRating_cases srt lm userID r with ⟨_, he⟩ | ⟨p, _, he⟩
  · rw [he]; exact h
  · rw [he]; exact calculateRanks_bounded _ _ (setRating_bounded lm p r h hr)

theorem Intn_rating_bounds (g : Rng) :
    (Intn g 4901).1 ≤ 4900 ∧ 100 ≤ (((Intn g 4901).1 : Nat) : Int) + 100 ∧
      (((Intn g 4901).1 : Nat) : Int) + 100 ≤ 5000 := by
  have h : (Intn g 4901).1 < 4901 := Nat.mod_lt _ (by decide)
  omega

theorem seedOne_heap_rating (lowerRune : Char → Char) (lm : LeaderboardManager) (g : Rng)
    (i : Nat) :
    ∃ u : User, (100 ≤ u.Rating ∧ u.Rating ≤ 5000) ∧
      (seedOne lowerRune lm g i).1.heap = lm.heap ++ [u] := by
  refine ⟨⟨(i : Int), sprintfUsername (firstNames.getD (Intn g firstNames.length).1 "")
      (lastNames.getD (Intn (Intn g firstNames.length).2 lastNames.length).1 "") i,
    (((Intn (Intn (Intn g firstNames.length).2 lastNames.length).2 4901).1 : Nat) : Int) + 100,
    0⟩, ?_, rfl⟩
  exact (Intn_rating_bounds (Intn (Intn g firstNames.length).2 lastNames.length).2).2

theorem seedOne_bounded (lowerRune : Char → Char) (lm : LeaderboardManager) (g : Rng)
    (i : Nat) (h : RatingsBounded lm) : RatingsBounded (seedOne lowerRune lm g i).1 := by
  obtain ⟨v, hv, hheap⟩ := seedOne_heap_rating lowerRune lm g i
  intro u hu
  rw [hheap] at hu
  rcases List.mem_append.1 hu with hu3 | hu3
  · exact h u hu3
  · rw [List.mem_singleton] at hu3
    rw [hu3]
    exact hv

theorem seedLoop_bounded (lowerRune : Char → Char) (n i : Nat) (lm : LeaderboardManager)
    (g : Rng) (h : RatingsBounded lm) : RatingsBounded (seedLoop lowerRune n i lm g).1 := by
  induction n generalizing i lm g with
  | zero => exact h
  | succ n ih => rw [seedLoop_succ]; exact ih _ _ _ (seedOne_bounded _ _ _ _ h)

theorem simulateLoop_succ (srt : SliceSort) (n : Nat) (lm : LeaderboardManager) (g : Rng)
    (hne : lm.users.length ≠ 0) :
    simulateLoop srt (n + 1) lm g
      = simulateLoop srt n
          (UpdateUserRating srt lm (((Intn g lm.users.length).1 : Nat) + 1)
            ((((Intn (Intn g lm.users.length).2 4901).1 : Nat) : Int) + 100)).1
          (Intn (Intn g lm.users.length).2 4901).2 := by
  rw [simulateLoop, if_neg hne]

theorem simulateLoop_bounded (srt : SliceSort) (n : Nat) (lm : LeaderboardManager) (g : Rng)
    (lm1 : LeaderboardManager) (g1 : Rng) (h : RatingsBounded lm)
    (hs : simulateLoop srt n lm g = some (lm1, g1)) : RatingsBounded lm1 := by
  induction n generalizing lm g with
  | zero =>
    simp only [simulateLoop, Option.some.injEq, Prod.mk.injEq] at hs
    rw [← hs.1]; exact h
  | succ n ih =>
    by_cases hne : lm.users.length = 0
    · rw [simulateLoop, if_pos hne] at hs; cases hs
    · rw [simulateLoop_succ srt n lm g hne] at hs
      exact ih _ _ (UpdateUserRating_bounded srt lm _ _ h (Intn_rating_bounds _).2) hs

theorem simulateLoop_reachable (srt : SliceSort) (lowerRune : Char → Char) (n : Nat)
    (lm : LeaderboardManager) (g : Rng) (lm1 : LeaderboardManager) (g1 : Rng)
    (h : Reachable srt lowerRune lm) (hs : simulateLoop srt n lm g = some (lm1, g1)) :
    Reachable srt lowerRune lm1 := by
  induction n generalizing lm g with
  | zero =>
    simp only [simulateLoop, Option.some.injEq, Prod.mk.injEq] at hs
    rw [← hs.1]; exact h
  | succ n ih =>
    by_cases hne : lm.users.length = 0
    · rw [simulateLoop, if_pos hne] at hs; cases hs
    · rw [simulateLoop_succ srt n lm g hne] at hs
      exact ih _ _ (Reachable.update lm _ _ h) hs

/-- What `updateHandler` does to the state: nothing, or one `UpdateUserRating` with a
rating in [100, 5000]. -/
theorem updateHandler_cases (srt : SliceSort) (lm : LeaderboardManager) (req : UpdateRequest) :
    (updateHandler srt lm req).1 = lm ∨
    ∃ userID rating : Int, req.body = some (userID, rating) ∧ 100 ≤ rating ∧ rating ≤ 5000 ∧
      (updateHandler srt lm req).1 = (UpdateUserRating srt lm userID rating).1 := by
  unfold updateHandler
  by_cases hm : req.method ≠ "POST"
  · rw [if_pos hm]; exact Or.inl rfl
  · rw [if_neg hm]
    cases hb : req.body with
    | none => exact Or.inl rfl
    | some b =>
      obtain ⟨userID, rating⟩ := b
      simp only []
      by_cases hr : rating < 100 ∨ rating > 5000
      · rw [if_pos hr]; exact Or.inl rfl
      · rw [if_neg hr]
        right
        refine ⟨userID, rating, rfl, by omega, by omega, ?_⟩
        rcases UpdateUserRating_cases srt lm userID rating with ⟨_, he⟩ | ⟨p, _, he⟩
        · rw [he]
        · rw [he]

theorem updateHandler_rejects (srt : SliceSort) (lm : LeaderboardManager) (method : String)
    (userID rating : Int) (hr : rating < 100 ∨ rating > 5000) :
    (updateHandler srt lm ⟨method, some (userID, rating)⟩).1 = lm ∧
    ((updateHandler srt lm ⟨method, some (userID, rating)⟩).2 = 400 ∨
      (updateHandler srt lm ⟨method, some (userID, rating)⟩).2 = 405) := by
  unfold updateHandler
  by_cases hm : method ≠ "POST"
  · rw [if_pos hm]; exact ⟨rfl, Or.inr rfl⟩
  · rw [if_neg hm]
    simp only []
    rw [if_pos hr]; exact ⟨rfl, Or.inl rfl⟩

theorem served_reachable {srt : SliceSort} {lowerRune : Char → Char}
    {lm : LeaderboardManager} (h : ReachableServed srt lowerRune lm) :
    Reachable srt lowerRune lm := by
  induction h with
  | init => exact Reachable.init
  | seed lm g count _ ih => exact Reachable.seed lm g count ih
  | tick lm g lm1 g1 _ hs ih => exact simulateLoop_reachable srt lowerRune 10 lm g lm1 g1 ih hs
  | request lm req _ ih =>
    rcases updateHandler_cases srt lm req with he | ⟨userID, rating, _, _, _, he⟩
    · rw [he]; exact ih
    · rw [he]; exact Reachable.update lm userID rating ih

theorem served_bounded (srt : SliceSort) (lowerRune : Char → Char) (lm : LeaderboardManager)
    (h : ReachableServed srt lowerRune lm) : RatingsBounded lm := by
  induction h with
  | init => intro u hu; cases hu
  | seed lm g count _ ih =>
    rw [SeedUsers_eq]
    exact calculateRanks_bounded _ _ (seedLoop_bounded _ _ _ _ _ ih)
  | tick lm g lm1 g1 _ hs ih => exact simulateLoop_bounded srt 10 lm g lm1 g1 ih hs
  | request lm req _ ih =>
    rcases updateHandler_cases srt lm req with he | ⟨userID, rating, _, h1, h2, he⟩
    · rw [he]; exact ih
    · rw [he]; exact UpdateUserRating_bounded srt lm userID rating ih ⟨h1, h2⟩

/-- C17: the write path keeps ratings in bounds. A request whose rating is below 100 or
above 5000 leaves the state unchanged (status 400, or 405 for a wrong method), and whenever
`updateHandler` changes the state it is by one `UpdateUserRating` with a rating in
[100, 5000]; the ratings `SeedUsers` and `SimulateRandomUpdates` draw are `r + 100` with
`0 <= r <= 4900`; hence in every state reachable through `SeedUsers`, the periodic updates
and `updateHandler` requests, the rating of every record, allocated or in the ranked index,
lies in [100, 5000]. -/
theorem ratings_in_bounds (srt : SliceSort) (lowerRune : Char → Char)
    (lm : LeaderboardManager) :
    (∀ (method : String) (userID rating : Int), rating < 100 ∨ rating > 5000 →
      (updateHandler srt lm ⟨method, some (userID, rating)⟩).1 = lm ∧
      ((updateHandler srt lm ⟨method, some (userID, rating)⟩).2 = 400 ∨
        (updateHandler srt lm ⟨method, some (userID, rating)⟩).2 = 405)) ∧
    (∀ req : UpdateRequest, (updateHandler srt lm req).1 = lm ∨
      ∃ userID rating : Int, req.body = some (userID, rating) ∧ 100 ≤ rating ∧
        rating ≤ 5000 ∧
        (updateHandler srt lm req).1 = (UpdateUserRating srt lm userID rating).1) ∧
    (∀ g : Rng, (Intn g 4901).1 ≤ 4900 ∧ 100 ≤ (((Intn g 4901).1 : Nat) : Int) + 100 ∧
      (((Intn g 4901).1 : Nat) : Int) + 100 ≤ 5000) ∧
    (ReachableServed srt lowerRune lm →
      (∀ u ∈ lm.heap, 100 ≤ u.Rating ∧ u.Rating ≤ 5000) ∧
      (∀ u ∈ ranked lm, 100 ≤ u.Rating ∧ u.Rating ≤ 5000)) := by
  refine ⟨updateHandler_rejects srt lm, updateHandler_cases srt lm, Intn_rating_bounds, ?_⟩
  intro h
  have hb := served_bounded srt lowerRune lm h
  refine ⟨hb, ?_⟩
  intro u hu
  obtain ⟨p, hp, rfl⟩ := List.mem_map.1 hu
  have hlt := (reachable_invariant srt lowerRune lm (served_reachable h)).1.1.2 p hp
  rw [deref_of_lt _ _ hlt]
  exact hb _ (List.getElem_mem _)

/-- A run of C17 on two seeded users: a request with rating 6000 is rejected with status
400, and after a request that moves user 1 to rating 4000 all ratings are in bounds. -/
theorem ratings_in_bounds_witness :
    updateHandler goSort (SeedUsers goSort Char.toLower NewLeaderboardManager demoRng 2).1
        ⟨"POST", some (1, 6000)⟩
      = ((SeedUsers goSort Char.toLower NewLeaderboardManager demoRng 2).1, 400) ∧
    ∀ u ∈ ranked (updateHandler goSort
        (SeedUsers goSort Char.toLower NewLeaderboardManager demoRng 2).1
        ⟨"POST", some (1, 4000)⟩).1, 100 ≤ u.Rating ∧ u.Rating ≤ 5000 :=
  ⟨by decide,
    ((ratings_in_bounds goSort Char.toLower _).2.2.2
      (ReachableServed.request _ ⟨"POST", some (1, 4000)⟩
        (ReachableServed.seed _ demoRng 2 ReachableServed.init))).2⟩

/-! ## Re-ranking and the previous order -/

/-- Two sorted arrangements of the same elements coincide when elements that compare
equal are equal. -/
theorem sorted_perm_eq_of_antisymm {α : Type} (less : α → α → Bool) (l1 l2 : List α)
    (hp : l1.Perm l2) (h1 : l1.Pairwise (fun a b => less b a = false))
    (h2 : l2.Pairwise (fun a b => less b a = false))
    (hanti : ∀ a ∈ l1, ∀ b ∈ l1, less a b = false → less b a = false → a = b) : l1 = l2 := by
  induction l1 generalizing l2 with
  | nil => exact (List.nil_perm.1 hp).symm
  | cons a t1 ih =>
    cases l2 with
    | nil => exact absurd hp.symm (by simp)
    | cons b t2 =>
      rw [List.pairwise_cons] at h1 h2
      have hab : a = b := by
        by_contra hne
        have ha : a ∈ t2 := by
          rcases List.mem_cons.1 (hp.mem_iff.1 (List.mem_cons_self a t1)) with e | h
          · exact absurd e hne
          · exact h
        have hb : b ∈ t1 := by
          rcases List.mem_cons.1 (hp.mem_iff.2 (List.mem_cons_self b t2)) with e | h
          · exact absurd e.symm hne
          · exact h
        exact hne (hanti a (List.mem_cons_self _ _) b (List.mem_cons_of_mem _ hb)
          (h2.1 a ha) (h1.1 b hb))
      subst hab
      rw [ih t2 (List.Perm.cons_inv hp) h1.2 h2.2
        (fun x hx y hy => hanti x (List.mem_cons_of_mem _ hx) y (List.mem_cons_of_mem _ hy))]

theorem userLess_eq_keyLess (a b : User) : userLess a b = keyLess (sortKey a) (sortKey b) := rfl

theorem keyLess_antisymm (a b : Int × String) (h1 : keyLess a b = false)
    (h2 : keyLess b a = false) : a = b := by
  obtain ⟨r1, u1⟩ := a
  obtain ⟨r2, u2⟩ := b
  unfold keyLess at h1 h2
  simp only at h1 h2
  by_cases hr : r1 = r2
  · subst hr
    rw [if_pos rfl] at h1 h2
    by_cases hu : u1 = u2
    · rw [hu]
    · rcases strLess_total u1 u2 hu with h | h
      · rw [h1] at h; cases h
      · rw [h2] at h; cases h
  · have hr2 : ¬ r2 = r1 := fun e => hr e.symm
    rw [if_neg hr] at h1
    rw [if_neg hr2] at h2
    simp only [gt_iff_lt, decide_eq_false_iff_not, not_lt] at h1 h2
    exact absurd (le_antisymm h1 h2) hr

theorem map_pair_congr {α β γ : Type} (f : α → β) (g : α → γ) (l1 l2 : List α)
    (hf : l1.map f = l2.map f) (hg : l1.map g = l2.map g) :
    l1.map (fun x => (f x, g x)) = l2.map (fun x => (f x, g x)) := by
  induction l1 generalizing l2 with
  | nil =>
    cases l2 with
    | nil => rfl
    | cons b t => simp at hf
  | cons a t ih =>
    cases l2 with
    | nil => simp at hf
    | cons b t2 =>
      simp only [List.map_cons, List.cons.injEq] at hf hg ⊢
      exact ⟨by rw [hf.1, hg.1], ih t2 hf.2 hg.2⟩

/-- The keys along the ranked index after `calculateRanks` depend only on the records, not
on their previous order. -/
theorem calculateRanks_keys (srt : SliceSort) (lm : LeaderboardManager) (idx2 : List Nat)
    (hp : idx2.Perm lm.usersByRating) :
    (calculateRanks srt { lm with usersByRating := idx2 }).usersByRating.map
        (fun p => sortKey (deref lm.heap p))
      = (calculateRanks srt lm).usersByRating.map (fun p => sortKey (deref lm.heap p)) := by
  have hs1 := srt.sorted (fun p q => userLess (deref lm.heap p) (deref lm.heap q))
    lm.usersByRating (isStrictWeak_userLess lm.heap)
  have hs2 := srt.sorted (fun p q => userLess (deref lm.heap p) (deref lm.heap q))
    idx2 (isStrictWeak_userLess lm.heap)
  apply sorted_perm_eq_of_antisymm keyLess
  · exact ((calculateRanks_perm srt _).trans (hp.trans (calculateRanks_perm srt lm).symm)).map _
  · rw [List.pairwise_map]; exact hs2
  · rw [List.pairwise_map]; exact hs1
  · intro a _ b _ h1 h2
    exact keyLess_antisymm a b h1 h2

theorem calculateRanks_rank_list (srt : SliceSort) (lm : LeaderboardManager)
    (hv : IndexValid lm) :
    (ranked (calculateRanks srt lm)).map User.Rank
      = rankSeq ((calculateRanks srt lm).usersByRating.map (fun p => (deref lm.heap p).Rating))
          0 none 1 := by
  have hv2 := calculateRanks_indexValid srt lm hv
  have hranks := rankLoop_ranks (calculateRanks srt lm).usersByRating 0 none 1 lm.heap hv2.1
    (fun p hp => by rw [← calculateRanks_length srt lm]; exact hv2.2 p hp)
  rw [← calculateRanks_heap] at hranks
  unfold ranked
  rw [List.map_map]
  exact hranks

/-- Outside the states of the engine: the two records of the hand-built `tiedPair` share
rating and username but not their id, and the insertion sort keeps them in the order it
finds them, so the two orders of the ranked index give different sequences of ids. -/
theorem tiedPair_keeps_input_order :
    [1, 0].Perm tiedPair.usersByRating ∧
    ranked (calculateRanks goSort tiedPair) = [⟨1, "a", 500, 1⟩, ⟨2, "a", 500, 1⟩] ∧
    ranked (calculateRanks goSort { tiedPair with usersByRating := [1, 0] })
      = [⟨2, "a", 500, 1⟩, ⟨1, "a", 500, 1⟩] ∧
    (ranked (calculateRanks goSort { tiedPair with usersByRating := [1, 0] })).map User.ID
      ≠ (ranked (calculateRanks goSort tiedPair)).map User.ID := by
  refine ⟨by decide, by decide, by decide, by decide⟩

/-- For any records, named by `SeedUsers` or not: two ranked indexes that are permutations
of each other come out of `calculateRanks` with the same username, rating and rank at
every position; when no two records of the index share both rating and username they come
out as the same sequence of records, and the same state. -/
theorem rerank_keys_and_ranks (srt : SliceSort) (lm : LeaderboardManager)
    (idx2 : List Nat) (hp : idx2.Perm lm.usersByRating) (hv : IndexValid lm) :
    (ranked (calculateRanks srt { lm with usersByRating := idx2 })).map
        (fun u => ((u.Rating, u.Username), u.Rank))
      = (ranked (calculateRanks srt lm)).map (fun u => ((u.Rating, u.Username), u.Rank)) ∧
    ((∀ a ∈ lm.usersByRating, ∀ b ∈ lm.usersByRating, a ≠ b →
        (deref lm.heap a).Rating ≠ (deref lm.heap b).Rating ∨
        (deref lm.heap a).Username ≠ (deref lm.heap b).Username) →
      calculateRanks srt { lm with usersByRating := idx2 } = calculateRanks srt lm) := by
  have hv2 : IndexValid { lm with usersByRating := idx2 } :=
    ⟨hp.nodup_iff.2 hv.1, fun p hp2 => hv.2 p (hp.mem_iff.1 hp2)⟩
  have hkeys := calculateRanks_keys srt lm idx2 hp
  constructor
  · apply map_pair_congr (fun u : User => (u.Rating, u.Username)) User.Rank
    · have e1 : ∀ m : LeaderboardManager, m.heap = lm.heap →
          (ranked (calculateRanks srt m)).map (fun u : User => (u.Rating, u.Username))
            = (calculateRanks srt m).usersByRating.map (fun p => sortKey (deref lm.heap p)) := by
        intro m hm
        unfold ranked
        rw [List.map_map]
        apply List.map_congr_left
        intro p _
        simp only [Function.comp, sortKey]
        rw [calculateRanks_Rating, calculateRanks_Username, hm]
      rw [e1 lm rfl, e1 { lm with usersByRating := idx2 } rfl]
      exact hkeys
    · rw [calculateRanks_rank_list srt _ hv2, calculateRanks_rank_list srt lm hv]
      have hr := congrArg (List.map Prod.fst) hkeys
      simp only [List.map_map] at hr
      exact congrArg (fun l => rankSeq l 0 none 1) hr
  · intro hd
    have hs1 := srt.sorted (fun p q => userLess (deref lm.heap p) (deref lm.heap q))
      lm.usersByRating (isStrictWeak_userLess lm.heap)
    have hs2 := srt.sorted (fun p q => userLess (deref lm.heap p) (deref lm.heap q))
      idx2 (isStrictWeak_userLess lm.heap)
    have hperm : (srt.sort (fun p q => userLess (deref lm.heap p) (deref lm.heap q)) idx2).Perm
        (srt.sort (fun p q => userLess (deref lm.heap p) (deref lm.heap q))
          lm.usersByRating) :=
      (srt.perm _ _).trans (hp.trans (srt.perm _ _).symm)
    have heq := sorted_perm_unique _ _ _ hperm hs2 hs1 (by
      intro a ha b hb hne
      have ha2 := hp.mem_iff.1 ((srt.perm _ _).mem_iff.1 ha)
      have hb2 := hp.mem_iff.1 ((srt.perm _ _).mem_iff.1 hb)
      apply userLess_total
      intro hk
      rcases hd a ha2 b hb2 hne with h | h
      · exact h (congrArg Prod.fst hk)
      · exact h (congrArg Prod.snd hk))
    unfold calculateRanks
    simp only [heq]

/-- The ranked index of the scenario read backwards is re-ranked to the same state. -/
theorem rerank_keys_and_ranks_example :
    calculateRanks goSort { scenarioABC with usersByRating := [2, 1, 0] }
      = calculateRanks goSort scenarioABC :=
  (rerank_keys_and_ranks goSort scenarioABC [2, 1, 0] (by decide)
    ⟨by decide, by decide⟩).2 (by decide)

/-! ## Usernames determine ids -/

theorem digitChar_value (d : Nat) (hd : d < 10) :
    (Nat.digitChar d).toNat - 48 = d ∧ (Nat.digitChar d).isDigit = true := by
  interval_cases d <;> decide

theorem toDigitsCore_append (fuel n : Nat) (ds : List Char) :
    Nat.toDigitsCore 10 fuel n ds = Nat.toDigitsCore 10 fuel n [] ++ ds := by
  induction fuel generalizing n ds with
  | zero => simp [Nat.toDigitsCore]
  | succ f ih =>
    simp only [Nat.toDigitsCore]
    split
    · simp
    · rw [ih (n / 10) (Nat.digitChar (n % 10) :: ds), ih (n / 10) [Nat.digitChar (n % 10)]]
      simp

theorem toDigitsCore_spec (fuel n : Nat) (h : n < fuel) :
    digitsValue (Nat.toDigitsCore 10 fuel n []) = n ∧
      ∀ c ∈ Nat.toDigitsCore 10 fuel n [], c.isDigit = true := by
  induction fuel generalizing n with
  | zero => omega
  | succ f ih =>
    have hd := digitChar_value (n % 10) (Nat.mod_lt _ (by decide))
    simp only [Nat.toDigitsCore]
    split
    · rename_i hz
      refine ⟨?_, ?_⟩
      · simp only [digitsValue, List.foldl_cons, List.foldl_nil]
        rw [hd.1]
        have : n / 10 = 0 := hz
        omega
      · intro c hc
        simp only [List.mem_singleton] at hc
        rw [hc]; exact hd.2
    · rename_i hz
      have hz2 : n / 10 ≠ 0 := hz
      have hlt : n / 10 < f := by omega
      obtain ⟨h1, h2⟩ := ih (n / 10) hlt
      rw [toDigitsCore_append]
      refine ⟨?_, ?_⟩
      · unfold digitsValue at h1 ⊢
        rw [List.foldl_append, h1]
        simp only [List.foldl_cons, List.foldl_nil]
        rw [hd.1]
        omega
      · intro c hc
        rcases List.mem_append.1 hc with hc | hc
        · exact h2 c hc
        · simp only [List.mem_singleton] at hc
          rw [hc]; exact hd.2

theorem toDigits_value (n : Nat) : digitsValue (Nat.toDigits 10 n) = n :=
  (toDigitsCore_spec (n + 1) n (by omega)).1

theorem toDigits_isDigit (n : Nat) : ∀ c ∈ Nat.toDigits 10 n, c.isDigit = true :=
  (toDigitsCore_spec (n + 1) n (by omega)).2

theorem digit_suffix (pre ds : List Char) (hpre : endsNonDigit pre = true)
    (hds : ∀ c ∈ ds, c.isDigit = true) :
    (pre ++ ds).reverse.takeWhile Char.isDigit = ds.reverse := by
  rw [List.reverse_append]
  rcases List.eq_nil_or_concat pre with hnil | ⟨init, c, hc⟩
  · subst hnil; simp [endsNonDigit] at hpre
  · rw [List.concat_eq_append] at hc
    subst hc
    have hcd : c.isDigit = false := by
      unfold endsNonDigit at hpre
      rw [List.getLast?_concat] at hpre
      simpa using hpre
    rw [List.takeWhile_append_of_pos (by
      intro a ha
      exact hds a (List.mem_reverse.1 ha))]
    simp [List.takeWhile_cons, hcd]

/-- A name followed by a decimal number determines the number. -/
theorem number_of_name (pre1 pre2 : List Char) (i1 i2 : Nat)
    (h1 : endsNonDigit pre1 = true) (h2 : endsNonDigit pre2 = true)
    (he : pre1 ++ Nat.toDigits 10 i1 = pre2 ++ Nat.toDigits 10 i2) : i1 = i2 := by
  have e1 := digit_suffix pre1 _ h1 (toDigits_isDigit i1)
  have e2 := digit_suffix pre2 _ h2 (toDigits_isDigit i2)
  rw [he, e2] at e1
  have e3 := List.reverse_injective e1
  rw [← toDigits_value i1, ← toDigits_value i2, e3]

theorem endsNonDigit_append (a b : List Char) (hb : endsNonDigit b = true) :
    endsNonDigit (a ++ b) = true := by
  unfold endsNonDigit at hb ⊢
  rw [List.getLast?_append]
  cases hbl : b.getLast? with
  | none => rw [hbl] at hb; simp at hb
  | some c => rw [hbl] at hb; simpa using hb

theorem lastName_endsNonDigit (li : Nat) :
    endsNonDigit ('_' :: (lastNames.getD li "").data) = true := by
  have hall : ∀ l ∈ "" :: lastNames, endsNonDigit ('_' :: l.data) = true := by decide
  apply hall
  rw [List.getD_eq_getElem?_getD]
  cases h : lastNames[li]? with
  | none => exact List.mem_cons_self _ _
  | some x => exact List.mem_cons_of_mem _ (List.getElem?_mem h)

theorem sprintfUsername_named (f : String) (li i : Nat) :
    NameCarriesID ((i : Int), sprintfUsername f (lastNames.getD li "") i) :=
  ⟨i, f.data ++ '_' :: (lastNames.getD li "").data, rfl, by simp [sprintfUsername, formatInt],
    endsNonDigit_append _ _ (lastName_endsNonDigit li)⟩

theorem seedOne_heap_named (lowerRune : Char → Char) (lm : LeaderboardManager) (g : Rng)
    (i : Nat) :
    ∃ u : User, NameCarriesID (u.ID, u.Username) ∧
      (seedOne lowerRune lm g i).1.heap = lm.heap ++ [u] := by
  refine ⟨⟨(i : Int), sprintfUsername (firstNames.getD (Intn g firstNames.length).1 "")
      (lastNames.getD (Intn (Intn g firstNames.length).2 lastNames.length).1 "") i,
    (((Intn (Intn (Intn g firstNames.length).2 lastNames.length).2 4901).1 : Nat) : Int) + 100,
    0⟩, ?_, rfl⟩
  exact sprintfUsername_named _ _ _

theorem seedLoop_heapNamed (lowerRune : Char → Char) (n i : Nat) (lm : LeaderboardManager)
    (g : Rng) (h : HeapNamed lm) : HeapNamed (seedLoop lowerRune n i lm g).1 := by
  induction n generalizing i lm g with
  | zero => exact h
  | succ n ih =>
    rw [seedLoop_succ]
    apply ih
    obtain ⟨u, hu, hheap⟩ := seedOne_heap_named lowerRune lm g i
    unfold HeapNamed
    rw [hheap, List.map_append]
    intro e he
    rcases List.mem_append.1 he with he | he
    · exact h e he
    · simp only [List.map_cons, List.map_nil, List.mem_singleton] at he
      rw [he]; exact hu

theorem calculateRanks_heapNamed (srt : SliceSort) (lm : LeaderboardManager)
    (h : HeapNamed lm) : HeapNamed (calculateRanks srt lm) := by
  unfold HeapNamed
  rw [heap_map_congr (fun u => (u.ID, u.Username)) _ _ (calculateRanks_length srt lm)
    (fun q => by simp only [calculateRanks_ID, calculateRanks_Username])]
  exact h

theorem setRating_heapNamed (lm : LeaderboardManager) (p : Nat) (r : Int)
    (h : HeapNamed lm) : HeapNamed { lm with heap := setRating lm.heap p r } := by
  unfold HeapNamed
  show ∀ e ∈ (setRating lm.heap p r).map (fun u => (u.ID, u.Username)), NameCarriesID e
  rw [heap_map_congr (fun u => (u.ID, u.Username)) _ _ (length_setRating lm.heap p r)
    (fun q => by simp only [deref_setRating_ID, deref_setRating_Username])]
  exact h

theorem reachable_heapNamed (srt : SliceSort) (lowerRune : Char → Char)
    (lm : LeaderboardManager) (h : Reachable srt lowerRune lm) : HeapNamed lm := by
  induction h with
  | init => intro e he; cases he
  | seed lm g count _ ih =>
    rw [SeedUsers_eq]
    exact calculateRanks_heapNamed _ _ (seedLoop_heapNamed _ _ _ _ _ ih)
  | update lm userID newRating _ ih =>
    rcases UpdateUserRating_cases srt lm userID newRating with ⟨_, he⟩ | ⟨p, _, he⟩
    · rw [he]; exact ih
    · rw [he]; exact calculateRanks_heapNamed _ _ (setRating_heapNamed lm p newRating ih)

/-- In a heap of records named by `SeedUsers`, the username determines the id. -/
theorem id_of_username (lm : LeaderboardManager) (h : HeapNamed lm) (u v : User)
    (hu : u ∈ lm.heap) (hv : v ∈ lm.heap) (he : u.Username = v.Username) : u.ID = v.ID := by
  obtain ⟨i1, pre1, hi1, hn1, hp1⟩ := h (u.ID, u.Username) (List.mem_map.2 ⟨u, hu, rfl⟩)
  obtain ⟨i2, pre2, hi2, hn2, hp2⟩ := h (v.ID, v.Username) (List.mem_map.2 ⟨v, hv, rfl⟩)
  simp only at hi1 hn1 hi2 hn2
  rw [he, hn2] at hn1
  rw [hi1, hi2, number_of_name pre1 pre2 i1 i2 hp1 hp2 hn1.symm]

/-! ## Re-ranking a reachable state -/

theorem not_userLess_of_precedes (a b : User) (h : Precedes a b) : userLess b a = false := by
  unfold userLess
  rcases h with h | ⟨h1, h2⟩
  · have hne : ¬ b.Rating = a.Rating := by omega
    rw [if_neg hne]
    simp only [gt_iff_lt, decide_eq_false_iff_not, not_lt]
    omega
  · rw [if_pos h1.symm, strLess_eq_decide]
    simpa using h2

theorem mem_heap_of_ranked (lm : LeaderboardManager) (hv : IndexValid lm) (u : User)
    (hu : u ∈ ranked lm) : u ∈ lm.heap := by
  obtain ⟨p, hp, rfl⟩ := List.mem_map.1 hu
  rw [deref_of_lt _ _ (hv.2 p hp)]
  exact List.getElem_mem _

/-- In a reachable state two records of the ranked index that the comparator does not
separate are equal in all four fields. -/
theorem reachable_ties_equal (srt : SliceSort) (lowerRune : Char → Char)
    (lm : LeaderboardManager) (h : Reachable srt lowerRune lm) (u v : User)
    (hu : u ∈ ranked lm) (hv : v ∈ ranked lm) (h1 : userLess u v = false)
    (h2 : userLess v u = false) : u = v := by
  have hinv := reachable_invariant srt lowerRune lm h
  have hk := keyLess_antisymm (sortKey u) (sortKey v) h1 h2
  have hr : u.Rating = v.Rating := congrArg Prod.fst hk
  have hn : u.Username = v.Username := congrArg Prod.snd hk
  have hid := id_of_username lm (reachable_heapNamed srt lowerRune lm h) u v
    (mem_heap_of_ranked lm hinv.1.1 u hu) (mem_heap_of_ranked lm hinv.1.1 v hv) hn
  have hrank := (rank_eq_iff_rating_eq _ hinv.2.2 u v hu hv).2 hr
  cases u; cases v
  simp only at hr hn hid hrank
  rw [hr, hn, hid, hrank]

theorem heap_ext (h1 h2 : List User) (hl : h1.length = h2.length)
    (hd : ∀ q, deref h1 q = deref h2 q) : h1 = h2 := by
  have := heap_map_congr id h1 h2 hl hd
  simpa using this

theorem setRating_same (h : List User) (p : Nat) (r : Int) (hr : (deref h p).Rating = r) :
    setRating h p r = h := by
  apply heap_ext _ _ (length_setRating h p r)
  intro q
  have hu : ({ deref h p with Rating := r } : User) = deref h p := by
    rw [← hr]
  rw [setRating, hu, deref_set]
  split
  · rename_i hc; rw [hc.1]
  · rfl

/-- Re-ranking a reachable state changes no record, and the ranked index reads the same. -/
theorem calculateRanks_of_reachable (srt : SliceSort) (lowerRune : Char → Char)
    (lm : LeaderboardManager) (h : Reachable srt lowerRune lm) :
    (calculateRanks srt lm).heap = lm.heap ∧ ranked (calculateRanks srt lm) = ranked lm := by
  have hinv := reachable_invariant srt lowerRune lm h
  have hperm := calculateRanks_perm srt lm
  have hcomp := calculateRanks_competition srt lm hinv.1.1
  have hheap : (calculateRanks srt lm).heap = lm.heap := by
    apply heap_ext _ _ (calculateRanks_length srt lm)
    intro q
    by_cases hq : q ∈ (calculateRanks srt lm).usersByRating
    · have hq0 : q ∈ lm.usersByRating := hperm.mem_iff.1 hq
      have e1 := hcomp _ (List.mem_map.2 ⟨q, hq, rfl⟩)
      have e2 := hinv.2.2 _ (List.mem_map.2 ⟨q, hq0, rfl⟩)
      have hcount : (ranked (calculateRanks srt lm)).countP
            (fun v => decide (v.Rating > (deref (calculateRanks srt lm).heap q).Rating))
          = (ranked lm).countP (fun v => decide (v.Rating > (deref lm.heap q).Rating)) := by
        unfold ranked
        rw [List.countP_map, List.countP_map, calculateRanks_Rating]
        have hfun : ((fun v : User => decide (v.Rating > (deref lm.heap q).Rating)) ∘
              deref (calculateRanks srt lm).heap)
            = ((fun v : User => decide (v.Rating > (deref lm.heap q).Rating)) ∘
              deref lm.heap) := by
          funext p
          simp only [Function.comp, calculateRanks_Rating]
        rw [hfun]
        exact hperm.countP_eq _
      have hrank : (deref (calculateRanks srt lm).heap q).Rank = (deref lm.heap q).Rank := by
        rw [e1, e2, hcount]
      have hid := calculateRanks_ID srt lm q
      have hname := calculateRanks_Username srt lm q
      have hrat := calculateRanks_Rating srt lm q
      revert hrank hid hname hrat
      cases deref (calculateRanks srt lm).heap q
      cases deref lm.heap q
      intro hrank hid hname hrat
      simp only at hrank hid hname hrat
      rw [hrank, hid, hname, hrat]
    · rw [calculateRanks_heap]
      exact rankLoop_of_not_mem _ _ _ _ _ _ hq
  refine ⟨hheap, ?_⟩
  have hs0 : lm.usersByRating.Pairwise
      (fun a b => userLess (deref lm.heap b) (deref lm.heap a) = false) := by
    have := hinv.2.1
    unfold SortedByComparator ranked at this
    rw [List.pairwise_map] at this
    exact this.imp (fun {a b} hab => not_userLess_of_precedes _ _ hab)
  have hs1 := srt.sorted (fun p q => userLess (deref lm.heap p) (deref lm.heap q))
    lm.usersByRating (isStrictWeak_userLess lm.heap)
  rw [← calculateRanks_usersByRating] at hs1
  unfold ranked
  rw [hheap]
  symm
  apply sorted_perm_eq_of_antisymm userLess
  · exact (hperm.symm).map _
  · rw [List.pairwise_map]; exact hs0
  · rw [List.pairwise_map]; exact hs1
  · intro a ha b hb h1 h2
    exact reachable_ties_equal srt lowerRune lm h a b ha hb h1 h2

/-! ## UpdateUserRating is idempotent -/

theorem copyLoop_succ (lm : LeaderboardManager) (n : Nat) (i : Int) :
    copyLoop lm (n + 1) i
      = ((indexAt lm.usersByRating i).map (deref lm.heap)).bind
          (fun u => (copyLoop lm n (i + 1)).map (fun rest => copyUser u :: rest)) := by
  rw [copyLoop]
  cases indexAt lm.usersByRating i <;> rfl

theorem indexAt_ranked (lm : LeaderboardManager) (i : Int) :
    (indexAt lm.usersByRating i).map (deref lm.heap)
      = if 0 ≤ i then (ranked lm)[i.toNat]? else none := by
  unfold indexAt ranked
  by_cases hi : 0 ≤ i
  · rw [if_pos hi, if_pos hi, List.getElem?_map, List.get?_eq_getElem?]
  · rw [if_neg hi, if_neg hi]; rfl

theorem copyLoop_congr (a b : LeaderboardManager) (h : ranked a = ranked b) (n : Nat)
    (i : Int) : copyLoop a n i = copyLoop b n i := by
  induction n generalizing i with
  | zero => rfl
  | succ n ih => rw [copyLoop_succ, copyLoop_succ, indexAt_ranked, indexAt_ranked, h, ih]

/-- The result of `GetLeaderboard` depends on the state only through the ranked records. -/
theorem GetLeaderboard_congr (a b : LeaderboardManager) (h : ranked a = ranked b)
    (limit offset : Int) : GetLeaderboard a limit offset = GetLeaderboard b limit offset := by
  have hl : a.usersByRating.length = b.usersByRating.length := by
    rw [← ranked_length, ← ranked_length, h]
  have hc : ∀ (n : Nat) (i : Int), copyLoop a n i = copyLoop b n i := copyLoop_congr a b h
  unfold GetLeaderboard
  simp only [hl, hc]

theorem sameObservable_refl (a : LeaderboardManager) : SameObservable a a :=
  ⟨rfl, rfl, rfl, rfl, rfl, fun _ _ => rfl⟩

/-- An update to the rating a record already has leaves the observable state as it was. -/
theorem update_same_rating (srt : SliceSort) (lowerRune : Char → Char)
    (lm : LeaderboardManager) (h : Reachable srt lowerRune lm) (userID r : Int) (p : Nat)
    (hl : mapLookup lm.users userID = some p) (hr : (deref lm.heap p).Rating = r) :
    SameObservable (UpdateUserRating srt lm userID r).1 lm ∧
      (UpdateUserRating srt lm userID r).2 = none := by
  have he : UpdateUserRating srt lm userID r = (calculateRanks srt lm, none) := by
    unfold UpdateUserRating
    rw [hl]
    simp only []
    rw [setRating_same lm.heap p r hr]
  rw [he]
  obtain ⟨h1, h2⟩ := calculateRanks_of_reachable srt lowerRune lm h
  exact ⟨⟨h2, h1, rfl, rfl, rfl, GetLeaderboard_congr _ _ h2⟩, rfl⟩

/-- C19: `UpdateUserRating` is idempotent. In every reachable state, a second
`UpdateUserRating(id, r)` right after the first returns the same error value and leaves the
observable state (the records of the ranked index in their order, with ratings and ranks,
and with it every read) as the first call left it; and a call with `r` equal to the current
rating of the record succeeds and leaves the observable state unchanged. -/
theorem update_idempotent (srt : SliceSort) (lowerRune : Char → Char)
    (lm : LeaderboardManager) (h : Reachable srt lowerRune lm) (userID r : Int) :
    (SameObservable
        (UpdateUserRating srt (UpdateUserRating srt lm userID r).1 userID r).1
        (UpdateUserRating srt lm userID r).1 ∧
      (UpdateUserRating srt (UpdateUserRating srt lm userID r).1 userID r).2
        = (UpdateUserRating srt lm userID r).2) ∧
    (∀ p, mapLookup lm.users userID = some p → (deref lm.heap p).Rating = r →
      SameObservable (UpdateUserRating srt lm userID r).1 lm ∧
        (UpdateUserRating srt lm userID r).2 = none) := by
  refine ⟨?_, fun p hl hr => update_same_rating srt lowerRune lm h userID r p hl hr⟩
  have h1 : Reachable srt lowerRune (UpdateUserRating srt lm userID r).1 :=
    Reachable.update lm userID r h
  rcases UpdateUserRating_cases srt lm userID r with ⟨_, he⟩ | ⟨p, hl, he⟩
  · rw [he]
    simp only []
    rw [he]
    exact ⟨sameObservable_refl lm, rfl⟩
  · have hp := ((reachable_invariant srt lowerRune lm h).1.2 _ (mapLookup_mem _ _ _ hl)).1
    rw [he] at h1 ⊢
    simp only [] at h1 ⊢
    have hl1 : mapLookup
        (calculateRanks srt { lm with heap := setRating lm.heap p r }).users userID = some p := by
      rw [calculateRanks_users]; exact hl
    have hr1 : (deref (calculateRanks srt { lm with heap := setRating lm.heap p r }).heap
        p).Rating = r := by
      rw [calculateRanks_Rating]
      exact deref_setRating_Rating_self _ _ _ hp
    exact update_same_rating srt lowerRune _ h1 userID r p hl1 hr1

/-- A run of C19 on the state with two seeded users: moving user 1 to rating 4000 twice. -/
theorem update_idempotent_witness :
    ranked (UpdateUserRating goSort (UpdateUserRating goSort
        (SeedUsers goSort Char.toLower NewLeaderboardManager demoRng 2).1 1 4000).1 1 4000).1
      = [⟨1, "sneha_malhotra1", 4000, 1⟩, ⟨2, "harsh_rajput2", 138, 2⟩] ∧
    SameObservable
      (UpdateUserRating goSort (UpdateUserRating goSort
        (SeedUsers goSort Char.toLower NewLeaderboardManager demoRng 2).1 1 4000).1 1 4000).1
      (UpdateUserRating goSort
        (SeedUsers goSort Char.toLower NewLeaderboardManager demoRng 2).1 1 4000).1 :=
  ⟨by decide,
    (update_idempotent goSort Char.toLower _ (Reachable.seed _ demoRng 2 Reachable.init)
      1 4000).1.1⟩

/-! ## Re-ranking does not depend on the previous order -/

/-- Records named by `SeedUsers` and ranked by `calculateRanks` that the comparator does not
separate are equal in all four fields. -/
theorem ties_equal_of_named (lm : LeaderboardManager) (hv : IndexValid lm)
    (hn : HeapNamed lm) (hc : CompetitionRanked (ranked lm)) (u v : User)
    (hu : u ∈ ranked lm) (hv2 : v ∈ ranked lm) (h1 : userLess u v = false)
    (h2 : userLess v u = false) : u = v := by
  have hk := keyLess_antisymm (sortKey u) (sortKey v) h1 h2
  have hr : u.Rating = v.Rating := congrArg Prod.fst hk
  have hname : u.Username = v.Username := congrArg Prod.snd hk
  have hid := id_of_username lm hn u v (mem_heap_of_ranked lm hv u hu)
    (mem_heap_of_ranked lm hv v hv2) hname
  have hrank := (rank_eq_iff_rating_eq _ hc u v hu hv2).2 hr
  cases u; cases v
  simp only at hr hname hid hrank
  rw [hr, hname, hid, hrank]

/-- On records named by `SeedUsers`, the state `calculateRanks` leaves reads the same
whatever the previous order of the ranked index: same records in the same order, and the
same heap. -/
theorem calculateRanks_perm_eq (srt : SliceSort) (lm : LeaderboardManager) (idx2 : List Nat)
    (hp : idx2.Perm lm.usersByRating) (hv : IndexValid lm) (hn : HeapNamed lm) :
    (calculateRanks srt { lm with usersByRating := idx2 }).heap = (calculateRanks srt lm).heap ∧
    ranked (calculateRanks srt { lm with usersByRating := idx2 })
      = ranked (calculateRanks srt lm) := by
  have hvA : IndexValid { lm with usersByRating := idx2 } :=
    ⟨hp.nodup_iff.2 hv.1, fun p hp2 => hv.2 p (hp.mem_iff.1 hp2)⟩
  have hnA : HeapNamed { lm with usersByRating := idx2 } := hn
  have hperm : (calculateRanks srt { lm with usersByRating := idx2 }).usersByRating.Perm
      (calculateRanks srt lm).usersByRating :=
    (calculateRanks_perm srt _).trans (hp.trans (calculateRanks_perm srt lm).symm)
  have hcA := calculateRanks_competition srt { lm with usersByRating := idx2 } hvA
  have hcB := calculateRanks_competition srt lm hv
  have hheap : (calculateRanks srt { lm with usersByRating := idx2 }).heap
      = (calculateRanks srt lm).heap := by
    apply heap_ext
    · rw [calculateRanks_length, calculateRanks_length]
    intro q
    by_cases hq : q ∈ (calculateRanks srt lm).usersByRating
    · have hqA : q ∈ (calculateRanks srt { lm with usersByRating := idx2 }).usersByRating :=
        hperm.mem_iff.2 hq
      have e1 := hcA _ (List.mem_map.2 ⟨q, hqA, rfl⟩)
      have e2 := hcB _ (List.mem_map.2 ⟨q, hq, rfl⟩)
      have hratA := calculateRanks_Rating srt { lm with usersByRating := idx2 } q
      have hratB := calculateRanks_Rating srt lm q
      have hcount : (ranked (calculateRanks srt { lm with usersByRating := idx2 })).countP
            (fun v => decide (v.Rating >
              (deref (calculateRanks srt { lm with usersByRating := idx2 }).heap q).Rating))
          = (ranked (calculateRanks srt lm)).countP
            (fun v => decide (v.Rating > (deref (calculateRanks srt lm).heap q).Rating)) := by
        unfold ranked
        rw [List.countP_map, List.countP_map, hratA, hratB]
        have hfunA : ((fun v : User => decide (v.Rating > (deref lm.heap q).Rating)) ∘
              deref (calculateRanks srt { lm with usersByRating := idx2 }).heap)
            = (fun p => decide ((deref lm.heap p).Rating > (deref lm.heap q).Rating)) := by
          funext p
          simp only [Function.comp, calculateRanks_Rating]
        have hfunB : ((fun v : User => decide (v.Rating > (deref lm.heap q).Rating)) ∘
              deref (calculateRanks srt lm).heap)
            = (fun p => decide ((deref lm.heap p).Rating > (deref lm.heap q).Rating)) := by
          funext p
          simp only [Function.comp, calculateRanks_Rating]
        show List.countP ((fun v : User => decide (v.Rating > (deref lm.heap q).Rating)) ∘
              deref (calculateRanks srt { lm with usersByRating := idx2 }).heap) _
          = List.countP ((fun v : User => decide (v.Rating > (deref lm.heap q).Rating)) ∘
              deref (calculateRanks srt lm).heap) _
        rw [hfunA, hfunB]
        exact hperm.countP_eq _
      have hrank : (deref (calculateRanks srt { lm with usersByRating := idx2 }).heap q).Rank
          = (deref (calculateRanks srt lm).heap q).Rank := by
        rw [e1, e2, hcount]
      have hid : (deref (calculateRanks srt { lm with usersByRating := idx2 }).heap q).ID
          = (deref (calculateRanks srt lm).heap q).ID := by
        rw [calculateRanks_ID, calculateRanks_ID]
      have hname : (deref (calculateRanks srt { lm with usersByRating := idx2 }).heap q).Username
          = (deref (calculateRanks srt lm).heap q).Username := by
        rw [calculateRanks_Username, calculateRanks_Username]
      have hrat : (deref (calculateRanks srt { lm with usersByRating := idx2 }).heap q).Rating
          = (deref (calculateRanks srt lm).heap q).Rating := by
        rw [hratA, hratB]
      revert hrank hid hname hrat
      cases deref (calculateRanks srt { lm with usersByRating := idx2 }).heap q
      cases deref (calculateRanks srt lm).heap q
      intro hrank hid hname hrat
      simp only at hrank hid hname hrat
      rw [hrank, hid, hname, hrat]
    · have hqA : q ∉ (calculateRanks srt { lm with usersByRating := idx2 }).usersByRating :=
        fun hm => hq (hperm.mem_iff.1 hm)
      rw [calculateRanks_heap, calculateRanks_heap, rankLoop_of_not_mem _ _ _ _ _ _ hq,
        rankLoop_of_not_mem _ _ _ _ _ _ hqA]
  refine ⟨hheap, ?_⟩
  have hsA : (ranked (calculateRanks srt { lm with usersByRating := idx2 })).Pairwise
      (fun a b => userLess b a = false) :=
    (calculateRanks_sorted srt { lm with usersByRating := idx2 }).imp
      (fun {a b} hab => not_userLess_of_precedes a b hab)
  have hsB : (ranked (calculateRanks srt lm)).Pairwise (fun a b => userLess b a = false) :=
    (calculateRanks_sorted srt lm).imp (fun {a b} hab => not_userLess_of_precedes a b hab)
  apply sorted_perm_eq_of_antisymm userLess _ _ _ hsA hsB
  · intro a ha b hb h1 h2
    exact ties_equal_of_named _ (calculateRanks_indexValid srt _ hvA)
      (calculateRanks_heapNamed srt _ hnA) hcA a b ha hb h1 h2
  · unfold ranked
    rw [hheap]
    exact hperm.map _

/-- The engine `tiedPair` is not a state of the engine: no call gives two records the
same username and different ids. -/
theorem tiedPair_not_reachable (srt : SliceSort) (lowerRune : Char → Char) :
    ¬ Reachable srt lowerRune tiedPair := by
  intro h
  have hid := id_of_username tiedPair (reachable_heapNamed srt lowerRune tiedPair h)
    ⟨1, "a", 500, 0⟩ ⟨2, "a", 500, 0⟩ (by decide) (by decide) rfl
  revert hid
  decide

/-- C15: the result of the re-rank does not depend on the previous order of the ranked
index. For the records of any reachable state and any two ranked indexes over them that
are permutations of each other, `calculateRanks` produces the same sequence of records,
field for field (the same ids at the same positions, with the same ranks), and leaves the
same records in the heap, for every sorter that meets the contract of `sort.Slice`. -/
theorem rerank_order_irrelevant (srt : SliceSort) (lowerRune : Char → Char)
    (lm : LeaderboardManager) (h : Reachable srt lowerRune lm) (idx1 idx2 : List Nat)
    (h1 : idx1.Perm lm.usersByRating) (h2 : idx2.Perm lm.usersByRating) :
    ranked (calculateRanks srt { lm with usersByRating := idx1 })
      = ranked (calculateRanks srt { lm with usersByRating := idx2 }) ∧
    (ranked (calculateRanks srt { lm with usersByRating := idx1 })).map User.ID
      = (ranked (calculateRanks srt { lm with usersByRating := idx2 })).map User.ID ∧
    (ranked (calculateRanks srt { lm with usersByRating := idx1 })).map User.Rank
      = (ranked (calculateRanks srt { lm with usersByRating := idx2 })).map User.Rank ∧
    (calculateRanks srt { lm with usersByRating := idx1 }).heap
      = (calculateRanks srt { lm with usersByRating := idx2 }).heap := by
  have hv := (reachable_invariant srt lowerRune lm h).1.1
  have hn := reachable_heapNamed srt lowerRune lm h
  obtain ⟨a1, a2⟩ := calculateRanks_perm_eq srt lm idx1 h1 hv hn
  obtain ⟨b1, b2⟩ := calculateRanks_perm_eq srt lm idx2 h2 hv hn
  have hr : ranked (calculateRanks srt { lm with usersByRating := idx1 })
      = ranked (calculateRanks srt { lm with usersByRating := idx2 }) := by
    rw [a2, b2]
  exact ⟨hr, by rw [hr], by rw [hr], by rw [a1, b1]⟩

/-- A run of C15 on the state left by `SeedUsers(1)` twice, whose two records share rating
and username (and id): both orders of the ranked index give the same sequence. -/
theorem rerank_order_irrelevant_witness :
    Reachable goSort Char.toLower
      (SeedUsers goSort Char.toLower
        (SeedUsers goSort Char.toLower NewLeaderboardManager demoRng 1).1 demoRng 1).1 ∧
    ranked (calculateRanks goSort
        { (SeedUsers goSort Char.toLower
            (SeedUsers goSort Char.toLower NewLeaderboardManager demoRng 1).1 demoRng 1).1
          with usersByRating := [1, 0] })
      = [⟨1, "sneha_malhotra1", 117, 1⟩, ⟨1, "sneha_malhotra1", 117, 1⟩] ∧
    ranked (calculateRanks goSort
        { (SeedUsers goSort Char.toLower
            (SeedUsers goSort Char.toLower NewLeaderboardManager demoRng 1).1 demoRng 1).1
          with usersByRating := [0, 1] })
      = ranked (calculateRanks goSort
        { (SeedUsers goSort Char.toLower
            (SeedUsers goSort Char.toLower NewLeaderboardManager demoRng 1).1 demoRng 1).1
          with usersByRating := [1, 0] }) :=
  ⟨Reachable.seed _ _ _ (Reachable.seed _ _ _ Reachable.init), by decide,
    (rerank_order_irrelevant goSort Char.toLower _
      (Reachable.seed _ demoRng 1 (Reachable.seed _ demoRng 1 Reachable.init))
      [0, 1] [1, 0] (by decide) (by decide)).1⟩

end Leaderboard
